import Mathlib

/-!
Shallow embedding of the STA (static timing analysis) engine:
the timing DAG, Kahn topological sort (src/sta/Khan.py), the forward
arrival-time propagator (src/Project/Forwards.py), the backward
required-time propagator (src/sta/Backwards.py), slack computation
(src/sta/slack_computation.py), the k-critical-path extractor
(src/sta/run_sta.py) and the Verilog front end (src/sta/Verilog_Parcer.py).

Nets are strings; delays and timing values are rationals (the Python code
uses floats; the analysis semantics is real-valued arithmetic, which we
embed over the rationals). The extended values -inf / +inf used by the
propagators are embedded by the type `ERat` below.
-/

namespace STA

attribute [local semireducible] Rat.add Rat.sub Rat.mul Rat.inv Rat.ofScientific

/-- Extended rationals: -inf, finite, +inf.  Mirrors the Python use of
float sentinels -math.inf and math.inf. -/
inductive ERat where
  | ninf : ERat
  | fin : ℚ → ERat
  | pinf : ERat
deriving DecidableEq, Repr

namespace ERat

/-- Addition following IEEE float semantics on the cases the code
reaches.  The code never adds -inf to +inf (Python would give NaN);
on that unreachable case we return fin 0. -/
def add : ERat → ERat → ERat
  | ninf, pinf => fin 0
  | pinf, ninf => fin 0
  | ninf, _ => ninf
  | _, ninf => ninf
  | pinf, _ => pinf
  | _, pinf => pinf
  | fin a, fin b => fin (a + b)

/-- Subtraction following IEEE float semantics on the cases the code
reaches.  inf - inf (Python NaN) is unreachable in the code; we return
fin 0 there. -/
def sub : ERat → ERat → ERat
  | pinf, pinf => fin 0
  | ninf, ninf => fin 0
  | pinf, _ => pinf
  | _, pinf => ninf
  | ninf, _ => ninf
  | _, ninf => pinf
  | fin a, fin b => fin (a - b)

/-- Absolute value on extended rationals. -/
def abs : ERat → ERat
  | ninf => pinf
  | pinf => pinf
  | fin a => fin |a|

/-- Strict order, with -inf below and +inf above every finite value. -/
def lt : ERat → ERat → Bool
  | ninf, ninf => false
  | ninf, _ => true
  | _, ninf => false
  | pinf, _ => false
  | _, pinf => true
  | fin a, fin b => a < b

/-- Non-strict order on extended rationals. -/
def le : ERat → ERat → Bool
  | ninf, _ => true
  | _, ninf => false
  | _, pinf => true
  | pinf, _ => false
  | fin a, fin b => a ≤ b

/-- Python math.isfinite. -/
def isFinite : ERat → Bool
  | fin _ => true
  | _ => false

/-- The finite value, when there is one. -/
def toQ : ERat → Option ℚ
  | fin a => some a
  | _ => none

/-- Minimum of two extended rationals (Python builtin min over floats). -/
def emin (a b : ERat) : ERat := if lt b a then b else a

end ERat

/-- Lookup in an association list (Python dict read `m[k]` / `m.get(k)`);
returns the first binding. -/
def getV {α β : Type} [DecidableEq α] : List (α × β) → α → Option β
  | [], _ => none
  | p :: rest, k => if p.1 = k then some p.2 else getV rest k

/-- Write to an existing key of an association list (the Python code only
ever assigns to keys that are already present, guarded by `if k in m`).
A missing key is left unchanged and not inserted. -/
def setV {α β : Type} [DecidableEq α] (m : List (α × β)) (k : α) (v : β) : List (α × β) :=
  m.map (fun p => if p.1 = k then (k, v) else p)

/-- The key list of an association list. -/
def keysOf {α β : Type} (m : List (α × β)) : List α :=
  m.map Prod.fst

/-- A timing DAG: the node list (networkx node insertion order) and the
edge list (u, v, delay) in insertion order.  networkx stores at most one
edge per ordered pair (u, v); well-formedness below captures that. -/
structure DiGraph where
  nodes : List String
  edges : List (String × String × ℚ)
deriving DecidableEq, Repr

namespace DiGraph

/-- Out-edges of u, in edge-insertion order (networkx G.out_edges(u, data)). -/
def outEdges (G : DiGraph) (u : String) : List (String × String × ℚ) :=
  G.edges.filter (fun e => e.1 = u)

/-- Successors of u (networkx G.successors(u)). -/
def successors (G : DiGraph) (u : String) : List String :=
  (G.outEdges u).map (fun e => e.2.1)

/-- In-degree of v (networkx G.in_degree(v)). -/
def inDeg (G : DiGraph) (v : String) : Nat :=
  (G.edges.filter (fun e => e.2.1 = v)).length

/-- Membership of an edge as an ordered pair (networkx G.has_edge(u, v)). -/
def hasEdge (G : DiGraph) (u v : String) : Bool :=
  G.edges.any (fun e => e.1 = u ∧ e.2.1 = v)

/-- Delay attribute of edge (u, v), when present. -/
def edgeDelay (G : DiGraph) (u v : String) : Option ℚ :=
  (G.edges.find? (fun e => e.1 = u ∧ e.2.1 = v)).map (fun e => e.2.2)

/-- Remove the edge (u, v) (networkx G.remove_edge). -/
def removeEdge (G : DiGraph) (u v : String) : DiGraph :=
  ⟨G.nodes, G.edges.filter (fun e => ¬(e.1 = u ∧ e.2.1 = v))⟩

/-- A fresh graph with the same nodes, edges and attributes
(networkx G.copy()). -/
def copy (G : DiGraph) : DiGraph :=
  ⟨G.nodes, G.edges⟩

/-- The ordered pair of an edge, without its delay attribute. -/
def pairOf (e : String × String × ℚ) : String × String := (e.1, e.2.1)

/-- Well-formedness guaranteed by networkx DiGraphs: nodes are distinct,
edge endpoints are registered nodes, and each ordered pair (u, v) carries
at most one edge. -/
def WF (G : DiGraph) : Prop :=
  G.nodes.Nodup ∧
  (∀ e ∈ G.edges, e.1 ∈ G.nodes ∧ e.2.1 ∈ G.nodes) ∧
  (G.edges.map pairOf).Nodup

instance (G : DiGraph) : Decidable (WF G) := by
  unfold WF; infer_instance

/-- The edge relation of the graph, forgetting delays. -/
def edgeRel (G : DiGraph) (u v : String) : Prop :=
  ∃ d, (u, v, d) ∈ G.edges

/-- A graph contains a cycle when some node reaches itself by a nonempty
chain of edges. -/
def HasCycle (G : DiGraph) : Prop :=
  ∃ u, Relation.TransGen G.edgeRel u u

end DiGraph

/-!
Backward propagator, embedded from src/sta/Backwards.py
(`backward_required_times`).  In the source, the backward sweep loop
(lines 50-57) is commented out, so the function returns only the seeded
values.  `backward_required_times` below embeds the code as written;
`backward_required_times_spec` embeds the sweep described by the
function docstring (RT[u] = min over out-edges of RT[v] - d) and by the
spec, which declares the commented-out sweep a bug.
-/

/-- Seeding phase shared by both variants: RT = +inf everywhere, then
Tclk - setup at every endpoint that is a node, then overrides verbatim
(also only at keys that are nodes). -/
def seedRT (G : DiGraph) (endpoints : List String) (Tclk setup : ℚ)
    (endpoint_overrides : List (String × ℚ)) : List (String × ERat) :=
  let RT0 : List (String × ERat) := G.nodes.map (fun n => (n, ERat.pinf))
  let RT1 := endpoints.foldl
    (fun m e => if (getV m e).isSome then setV m e (ERat.fin (Tclk - setup)) else m) RT0
  endpoint_overrides.foldl
    (fun m p => if (getV m p.1).isSome then setV m p.1 (ERat.fin p.2) else m) RT1

/-- Embeds src/sta/Backwards.py backward_required_times as written: the
backward sweep is commented out in the source, so only the seeded values
are returned. -/
def backward_required_times (G : DiGraph) (topo : List String)
    (endpoints : List String) (Tclk setup : ℚ)
    (endpoint_overrides : List (String × ℚ)) : List (String × ERat) :=
  let _ := topo
  seedRT G endpoints Tclk setup endpoint_overrides

/-- Modelled from the spec: the backward sweep that src/sta/Backwards.py
documents (docstring RT[u] = min over (u,v) of RT[v] - d) and that the
spec requires, but whose loop is commented out in the source.  Sweeps in
reverse topological order updating RT[u] to min(RT[u], RT[v] - d). -/
def backward_required_times_spec (G : DiGraph) (topo : List String)
    (endpoints : List String) (Tclk setup : ℚ)
    (endpoint_overrides : List (String × ℚ)) : List (String × ERat) :=
  let RT := seedRT G endpoints Tclk setup endpoint_overrides
  topo.reverse.foldl
    (fun m u =>
      (G.outEdges u).foldl
        (fun m e =>
          let rv := (getV m e.2.1).getD ERat.pinf
          let cand := ERat.sub rv (ERat.fin e.2.2)
          let ru := (getV m u).getD ERat.pinf
          if ERat.lt cand ru then setV m u cand else m)
        m)
    RT

/-!
Forward propagator, embedded from src/Project/Forwards.py
(`forward_arrival_times`).
-/

/-- State of the forward sweep: the arrival-time map and the
back-predecessor map. -/
def FState : Type := List (String × ERat) × List (String × List String)

/-- Processing one out-edge (u, v, d) of u during the forward sweep, with
au the arrival time of u read once before the inner loop.  Mirrors the
body of the inner loop of forward_arrival_times: cand = AT[u] + d; a
strict winner (cand > AT[v] + eps) overwrites AT[v] and resets
backpred[v] to [u]; a tie within eps appends u to backpred[v]. -/
def fwdEdgeStep (eps : ℚ) (u : String) (au : ERat) (st : FState)
    (e : String × String × ℚ) : FState :=
  let cand := ERat.add au (ERat.fin e.2.2)
  let atv := (getV st.1 e.2.1).getD ERat.ninf
  if ERat.lt (ERat.add atv (ERat.fin eps)) cand then
    (setV st.1 e.2.1 cand, setV st.2 e.2.1 [u])
  else if ERat.le (ERat.abs (ERat.sub cand atv)) (ERat.fin eps) then
    (st.1, setV st.2 e.2.1 (((getV st.2 e.2.1).getD []) ++ [u]))
  else st

/-- Processing one node of the topological order during the forward
sweep: read AT[u] once; skip unreachable nodes (AT[u] = -inf); otherwise
push to every out-edge.  A u that is not a key of AT would raise KeyError
in Python; that is unreachable in every use since the order comes from
Kahn on the same graph, and we skip it. -/
def fwdNodeStep (G : DiGraph) (eps : ℚ) (st : FState) (u : String) : FState :=
  match getV st.1 u with
  | none => st
  | some au =>
    match au with
    | ERat.ninf => st
    | _ => (G.outEdges u).foldl (fwdEdgeStep eps u au) st

/-- Embeds src/Project/Forwards.py forward_arrival_times: initialize AT
to -inf and backpred to [] on every node, seed startpoints with
clock_to_q, apply overrides verbatim (both only at keys that are nodes),
then sweep in the given topological order. -/
def forward_arrival_times (G : DiGraph) (topo : List String)
    (startpoints : List String) (clock_to_q : ℚ)
    (startpoint_overrides : List (String × ℚ)) (eps : ℚ) : FState :=
  let AT0 : List (String × ERat) := G.nodes.map (fun n => (n, ERat.ninf))
  let bp0 : List (String × List String) := G.nodes.map (fun n => (n, []))
  let AT1 := startpoints.foldl
    (fun m s => if (getV m s).isSome then setV m s (ERat.fin clock_to_q) else m) AT0
  let AT2 := startpoint_overrides.foldl
    (fun m p => if (getV m p.1).isSome then setV m p.1 (ERat.fin p.2) else m) AT1
  topo.foldl (fwdNodeStep G eps) (AT2, bp0)

/-- Strict precedence in a list: u appears (first) before v.  Used to
state that a list is a topological order of a graph. -/
def beforeIn (l : List String) (u v : String) : Prop :=
  u ∈ l ∧ v ∈ l ∧ l.indexOf u < l.indexOf v

instance (l : List String) (u v : String) : Decidable (beforeIn l u v) := by
  unfold beforeIn; infer_instance

/-- The forward-sweep invariant after processing the nodes of P: every
recorded back-predecessor u of v is a processed edge source whose
arrival time plus the edge delay is within eps of the arrival time of
v. -/
def FwdInv (G : DiGraph) (eps : ℚ) (P : List String) (st : FState) : Prop :=
  ∀ v bl u, getV st.2 v = some bl → u ∈ bl →
    ∃ d au av, (u, v, d) ∈ G.edges ∧ u ∈ P ∧
      getV st.1 u = some au ∧ getV st.1 v = some av ∧
      ERat.le (ERat.abs (ERat.sub (ERat.add au (ERat.fin d)) av)) (ERat.fin eps) = true

/-!
Slack computation, embedded from src/sta/slack_computation.py
(`compute_slacks`).
-/

/-- Embeds compute_slacks: node slack RT[n] - AT[n] (missing keys
defaulting to +inf / -inf), edge slack RT[v] - AT[u] - d, WNS the Python
min over the finite node slacks (+inf when none), TNS the sum of the
negative finite node slacks. -/
def compute_slacks (G : DiGraph) (AT RT : List (String × ERat)) :
    List (String × ERat) × List ((String × String) × ERat) × ERat × ℚ :=
  let node_slack := G.nodes.map (fun n =>
    (n, ERat.sub ((getV RT n).getD ERat.pinf) ((getV AT n).getD ERat.ninf)))
  let edge_slack := G.edges.map (fun e =>
    ((e.1, e.2.1),
     ERat.sub
       (ERat.sub ((getV RT e.2.1).getD ERat.pinf) ((getV AT e.1).getD ERat.ninf))
       (ERat.fin e.2.2)))
  let finVals := node_slack.filterMap (fun p => ERat.toQ p.2)
  let WNS := match finVals with
    | [] => ERat.pinf
    | x :: xs => ERat.fin (xs.foldl min x)
  let TNS := (finVals.filter (fun s => s < 0)).sum
  (node_slack, edge_slack, WNS, TNS)

/-!
Kahn topological sort, embedded from src/sta/Khan.py
(`Khan_topological_sort`).  The `is_directed` check always passes in this
embedding (every DiGraph is directed), so the NotDirected failure does
not arise; the cycle failure is the error case of the Except.
-/

/-- Processing the successors of a dequeued node u: decrement each
successor in-degree counter and append to the queue those that reach
exactly zero.  In-degrees are integers as in Python (they may go
negative; a -1 does not re-enqueue). -/
def kahnVisit (G : DiGraph) (u : String) (indeg : List (String × Int))
    (q : List String) : List (String × Int) × List String :=
  (G.successors u).foldl
    (fun acc v =>
      let dv := (getV acc.1 v).getD 0 - 1
      let ind := setV acc.1 v dv
      if dv = 0 then (ind, acc.2 ++ [v]) else (ind, acc.2))
    (indeg, q)

/-- The while loop of Kahn: pop the queue front, record it, push its
successors.  The fuel argument only bounds the iteration count; the
theorems below show the queue empties within nodes.length iterations, so
fuel nodes.length + 1 never runs out. -/
def kahnLoop (G : DiGraph) : Nat → List (String × Int) → List String →
    List String → List String
  | 0, _, _, order => order
  | fuel + 1, indeg, q, order =>
    match q with
    | [] => order
    | u :: qs =>
      let p := kahnVisit G u indeg qs
      kahnLoop G fuel p.1 p.2 (order ++ [u])

/-- The number of edges into v whose source has not been output yet,
as an integer.  This is the value the in-degree counters of the Kahn
loop hold for every node. -/
def remInDeg (G : DiGraph) (order : List String) (v : String) : Int :=
  ((G.edges.filter (fun e => e.2.1 = v ∧ e.1 ∉ order)).length : Int)

/-- The Kahn loop invariant relating the in-degree counters, the queue
and the output so far: counters are keyed by the nodes and hold the
remaining in-degrees, output and queue are disjoint node lists without
duplicates, the queue holds exactly the unprocessed nodes whose
remaining in-degree is zero, and every edge into an output node comes
from an earlier output node. -/
def KInv (G : DiGraph) (indeg : List (String × Int)) (q order : List String) : Prop :=
  keysOf indeg = G.nodes ∧
  (order ++ q).Nodup ∧
  (∀ x ∈ order, x ∈ G.nodes) ∧
  (∀ x ∈ q, x ∈ G.nodes) ∧
  (∀ v ∈ G.nodes, getV indeg v = some (remInDeg G order v)) ∧
  (∀ v, v ∈ q ↔ (v ∈ G.nodes ∧ v ∉ order ∧ remInDeg G order v = 0)) ∧
  (∀ e ∈ G.edges, e.2.1 ∈ order → e.1 ∈ order ∧ beforeIn order e.1 e.2.1)

/-- Embeds Khan_topological_sort: in-degrees over the node list, initial
queue the nodes of in-degree zero in node order, FIFO loop, and the
cycle failure (networkx NetworkXUnfeasible) when the output is shorter
than the node count. -/
def Khan_topological_sort (G : DiGraph) : Except Unit (List String) :=
  let indeg := G.nodes.map (fun u => (u, (G.inDeg u : Int)))
  let q0 := G.nodes.filter (fun u => G.inDeg u = 0)
  let order := kahnLoop G (G.nodes.length + 1) indeg q0 []
  if order.length ≠ G.nodes.length then Except.error () else Except.ok order

/-!
Analysis driver and critical-path extraction, embedded from
src/sta/run_sta.py.
-/

/-- The result bundle returned by run_sta. -/
structure STAResult where
  AT : List (String × ERat)
  RT : List (String × ERat)
  backpred : List (String × List String)
  node_slack : List (String × ERat)
  edge_slack : List ((String × String) × ERat)
  WNS : ERat
  TNS : ℚ
  topo : List String
deriving DecidableEq, Repr

/-- Embeds run_sta: Kahn order (its cycle failure propagates), forward
sweep, backward sweep, slacks. -/
def run_sta (G : DiGraph) (startpoints endpoints : List String)
    (Tclk setup clock_to_q : ℚ)
    (startpoint_overrides endpoint_overrides : List (String × ℚ))
    (eps : ℚ) : Except Unit STAResult :=
  match Khan_topological_sort G with
  | Except.error e => Except.error e
  | Except.ok topo =>
    let fb := forward_arrival_times G topo startpoints clock_to_q
      startpoint_overrides eps
    let RT := backward_required_times G topo endpoints Tclk setup
      endpoint_overrides
    let s := compute_slacks G fb.1 RT
    Except.ok ⟨fb.1, RT, fb.2, s.1, s.2.1, s.2.2.1, s.2.2.2, topo⟩

/-- One extracted critical path: its node sequence, edge list, summed
delay, and path-restricted WNS and TNS.  The Python dict also carries
the full analysis bundle under key "sta"; no claim refers to it and it
is omitted here. -/
structure PathInfo where
  nodes : List String
  edges : List (String × String)
  delay : ℚ
  WNS : ERat
  TNS : ERat
deriving DecidableEq, Repr

/-- The backward trace loop of extract_single_critical_path: append the
current node; stop on a startpoint, a node missing from backpred, or an
empty back-predecessor list; otherwise follow backpred[current][0].  The
fuel only bounds iterations; when backpred comes from a forward sweep on
an acyclic graph the loop stops within nodes.length steps because every
followed pair is a graph edge and the graph has no cycle, so fuel
nodes.length + 1 never runs out. -/
def traceLoop (startpoints : List String)
    (backpred : List (String × List String)) :
    Nat → String → List String → List (String × String) →
    List String × List (String × String)
  | 0, _, pn, pe => (pn, pe)
  | fuel + 1, current, pn, pe =>
    let pn := pn ++ [current]
    if current ∈ startpoints then (pn, pe)
    else
      match getV backpred current with
      | none => (pn, pe)
      | some [] => (pn, pe)
      | some (pred :: _) =>
        traceLoop startpoints backpred fuel pred pn (pe ++ [(pred, current)])

/-- Embeds extract_single_critical_path: run the analysis, pick among
the endpoints with a defined node slack the first one of minimum slack,
trace backward through backpred, reverse, and compute the path delay and
path-restricted WNS / TNS.  Fewer than two traced nodes yields no
path. -/
def extract_single_critical_path (G : DiGraph)
    (startpoints endpoints : List String) (Tclk setup clock_to_q : ℚ)
    (startpoint_overrides endpoint_overrides : List (String × ℚ))
    (eps : ℚ) : Except Unit (Option PathInfo) :=
  match run_sta G startpoints endpoints Tclk setup clock_to_q
      startpoint_overrides endpoint_overrides eps with
  | Except.error e => Except.error e
  | Except.ok res =>
    let valid := endpoints.filter (fun e => (getV res.node_slack e).isSome)
    match valid with
    | [] => Except.ok none
    | e0 :: erest =>
      let worst := erest.foldl
        (fun best e =>
          if ERat.lt ((getV res.node_slack e).getD ERat.pinf)
              ((getV res.node_slack best).getD ERat.pinf)
          then e else best) e0
      let t := traceLoop startpoints res.backpred (G.nodes.length + 1) worst [] []
      if t.1.length < 2 then Except.ok none
      else
        let pn := t.1.reverse
        let pe := t.2.reverse
        let total := pe.foldl
          (fun acc uv =>
            if G.hasEdge uv.1 uv.2 then acc + ((G.edgeDelay uv.1 uv.2).getD 0)
            else acc) 0
        let nslacks := pn.map (fun n => (getV res.node_slack n).getD ERat.pinf)
        let eslacks := pe.map (fun uv => (getV res.edge_slack uv).getD ERat.pinf)
        let allSlacks := nslacks ++ eslacks
        let pWNS := match allSlacks with
          | [] => ERat.pinf
          | x :: xs => xs.foldl ERat.emin x
        let pTNS := (allSlacks.filter (fun s => ERat.lt s (ERat.fin 0))).foldl
          ERat.add (ERat.fin 0)
        Except.ok (some ⟨pn, pe, total, pWNS, pTNS⟩)

/-- The state of find_k_critical_paths: the caller graph (the Python
code never invokes a mutating method on it) and the working copy
(work_graph = G.copy()), the only object remove_edge is called on. -/
structure KState where
  orig : DiGraph
  work : DiGraph
deriving DecidableEq, Repr

/-- The loop of find_k_critical_paths: up to k extractions, each on the
current working copy; an emitted path has its edges removed from the
working copy (guarded by has_edge, as in the source); extraction
yielding no path stops the loop. -/
def findKLoop (startpoints endpoints : List String)
    (Tclk setup clock_to_q : ℚ)
    (startpoint_overrides endpoint_overrides : List (String × ℚ))
    (eps : ℚ) : Nat → KState → List PathInfo →
    Except Unit (List PathInfo × KState)
  | 0, st, acc => Except.ok (acc, st)
  | k + 1, st, acc =>
    match extract_single_critical_path st.work startpoints endpoints Tclk
        setup clock_to_q startpoint_overrides endpoint_overrides eps with
    | Except.error e => Except.error e
    | Except.ok none => Except.ok (acc, st)
    | Except.ok (some p) =>
      let w := p.edges.foldl
        (fun g uv => if g.hasEdge uv.1 uv.2 then g.removeEdge uv.1 uv.2 else g)
        st.work
      findKLoop startpoints endpoints Tclk setup clock_to_q
        startpoint_overrides endpoint_overrides eps k ⟨st.orig, w⟩ (acc ++ [p])

/-- Embeds find_k_critical_paths: make the working copy, loop up to k
times, return the emitted paths. -/
def find_k_critical_paths (G : DiGraph) (startpoints endpoints : List String)
    (Tclk setup clock_to_q : ℚ)
    (startpoint_overrides endpoint_overrides : List (String × ℚ))
    (eps : ℚ) (k : Nat) : Except Unit (List PathInfo) :=
  (findKLoop startpoints endpoints Tclk setup clock_to_q
    startpoint_overrides endpoint_overrides eps k ⟨G, G.copy⟩ []).map Prod.fst

/-!
Verilog front end, embedded from src/sta/Verilog_Parcer.py.  Lines are
lists of characters (the splitlines of the file, hence free of line
terminators).  The regexes of the source are embedded as the matching
functions below, each following the first-match semantics of the Python
re module for its pattern.
-/

/-- Python regex \s on the characters occurring in netlist lines. -/
def isWs (c : Char) : Bool :=
  c = ' ' ∨ c = '\t' ∨ c = '\n' ∨ c = '\r' ∨ c = '\x0b' ∨ c = '\x0c'

/-- Python regex \w (ASCII): letters, digits, underscore. -/
def isWordChar (c : Char) : Bool :=
  (('a' ≤ c ∧ c ≤ 'z') ∨ ('A' ≤ c ∧ c ≤ 'Z') ∨ ('0' ≤ c ∧ c ≤ '9') ∨ c = '_')

/-- The class [A-Za-z_] heading a plain identifier. -/
def isAlphaU (c : Char) : Bool :=
  (('a' ≤ c ∧ c ≤ 'z') ∨ ('A' ≤ c ∧ c ≤ 'Z') ∨ c = '_')

/-- The class [0-9]. -/
def isDigitCh (c : Char) : Bool := '0' ≤ c ∧ c ≤ '9'

/-- Python str.strip(): drop whitespace from both ends. -/
def trimWs (l : List Char) : List Char :=
  ((l.dropWhile isWs).reverse.dropWhile isWs).reverse

/-- Whether pat is a prefix of l (Python str.startswith). -/
def startsWithL : List Char → List Char → Bool
  | _, [] => true
  | [], _ :: _ => false
  | c :: l, p :: ps => c = p ∧ startsWithL l ps

/-- Whether pat occurs as a contiguous sublist of l (Python `pat in s`). -/
def containsL : List Char → List Char → Bool
  | l, pat =>
    if startsWithL l pat then true
    else match l with
      | [] => false
      | _ :: rest => containsL rest pat

/-- Greedy match of a plain identifier token [A-Za-z_]\w*(?:\[\d+\])? at
the head of l; returns the token, a prefix of l.  The optional subscript
is taken when a full [digits] bracket follows, as the regex backtracks
the optional group otherwise. -/
def matchIdentTok (l : List Char) : Option (List Char) :=
  match l with
  | [] => none
  | c :: rest =>
    if isAlphaU c then
      let word := rest.takeWhile isWordChar
      let sub : List Char :=
        match rest.drop word.length with
        | '[' :: r3 =>
          let ds := r3.takeWhile isDigitCh
          match ds, r3.drop ds.length with
          | _ :: _, ']' :: _ => '[' :: ds ++ [']']
          | _, _ => []
        | _ => []
      some (c :: word ++ sub)
    else none

/-- Recursion core of findSignals.  The fuel argument is only a
structural bound on the scan: every step consumes at least one
character, so fuel equal to the input length (as findSignals supplies)
never runs out. -/
def findSignalsAux : Nat → List Char → List (List Char)
  | 0, _ => []
  | _ + 1, [] => []
  | fuel + 1, c :: rest =>
    if c = '\\' then
      let tok := rest.takeWhile (fun ch => ¬ isWs ch ∧ ch ≠ ',' ∧ ch ≠ ';')
      if tok = [] then findSignalsAux fuel rest
      else (c :: tok) :: findSignalsAux fuel (rest.drop tok.length)
    else
      match matchIdentTok (c :: rest) with
      | some tok => tok :: findSignalsAux fuel ((c :: rest).drop tok.length)
      | none => findSignalsAux fuel rest

/-- Embeds signal_re.findall: scan left to right for escaped identifiers
(a backslash followed by one or more characters outside whitespace, comma
and semicolon) or plain identifiers with optional subscript; positions
matching neither are skipped. -/
def findSignals (l : List Char) : List (List Char) :=
  findSignalsAux l.length l

/-- The match of `\s*(.+?);` against rest (the tail of the procedural
and continuous assignment patterns), following first-match semantics:
the whitespace run is preferred long, the lazy group short.  Returns the
group.  The group is nonempty by the pattern, and the dot does not cross
line terminators (absent from split lines). -/
def matchLazyRHS (rest : List Char) : Option (List Char) :=
  let w := (rest.takeWhile isWs).length
  match (rest.drop w).findIdx? (fun c => c = ';') with
  | some p =>
    if p ≥ 1 then some ((rest.drop w).take p)
    else if w ≥ 1 then some (rest.drop (w - 1) |>.take 1)
    else
      match (rest.drop 1).findIdx? (fun c => c = ';') with
      | some q => some (rest.take (q + 1))
      | none => none
  | none => none

/-- Embeds proc_assign_re.match: pattern
`\s*([A-Za-z_]\w*(?:\[\d+\])?)\s*(<=|=)\s*(.+?);`.  Returns
(lhs, op, rhs); op is true for a non-blocking `<=` and false for `=`. -/
def matchProcAssign (line : List Char) : Option (List Char × Bool × List Char) :=
  let l1 := line.dropWhile isWs
  match matchIdentTok l1 with
  | none => none
  | some lhs =>
    let r2 := (l1.drop lhs.length).dropWhile isWs
    match r2 with
    | '<' :: '=' :: r3 =>
      (matchLazyRHS r3).map (fun rhs => (lhs, true, rhs))
    | '=' :: r3 =>
      (matchLazyRHS r3).map (fun rhs => (lhs, false, rhs))
    | _ => none

/-- Embeds assign_re.match: pattern `\s*assign\s+(.+?)\s*=\s*(.+?);`.
The first lazy group grows until a whitespace run followed by `=` lets
the rest of the pattern match; on failure of the tail the group is
extended, implementing the backtracking of the re engine. -/
def matchAssignAux (acc : List Char) (rem : List Char) : Option (List Char × List Char) :=
  let tryHere : Option (List Char × List Char) :=
    match acc with
    | [] => none
    | _ :: _ =>
      match rem.dropWhile isWs with
      | '=' :: tail => (matchLazyRHS tail).map (fun rhs => (acc.reverse, rhs))
      | _ => none
  match tryHere with
  | some r => some r
  | none =>
    match rem with
    | [] => none
    | c :: rest => matchAssignAux (c :: acc) rest

/-- Embeds assign_re.match on a full line: leading whitespace, the
literal `assign`, at least one whitespace, then the two groups. -/
def matchAssign (line : List Char) : Option (List Char × List Char) :=
  let l1 := line.dropWhile isWs
  if startsWithL l1 ['a', 's', 's', 'i', 'g', 'n'] then
    let r1 := l1.drop 6
    let w := r1.takeWhile isWs
    match w with
    | [] => none
    | _ :: _ => matchAssignAux [] (r1.drop w.length)
  else none

/-- The match of `\s*([^)]+)\s*\)` inside a port of the MUX2 pattern:
the group is the run up to the first closing parenthesis, its leading
whitespace removed, except that a group reduced to nothing backtracks
one whitespace character.  Returns the group and the remainder after
the closing parenthesis. -/
def matchParenGroup (l : List Char) : Option (List Char × List Char) :=
  match l.findIdx? (fun c => c = ')') with
  | none => none
  | some p =>
    let w := (l.takeWhile isWs).length
    if p > w then some ((l.drop w).take (p - w), l.drop (p + 1))
    else if w ≥ 1 then some (l.drop (p - 1) |>.take 1, l.drop (p + 1))
    else none

/-- Consume `\s*` then the given literal; used for the fixed parts of
the MUX2 pattern. -/
def eatWsLit (l : List Char) (lit : List Char) : Option (List Char) :=
  let r := l.dropWhile isWs
  if startsWithL r lit then some (r.drop lit.length) else none

/-- Embeds mux2_re.match: pattern
`\s*MUX2\s+\w+\s*\(\s*\.A\s*\(\s*([^)]+)\s*\)\s*,\s*\.B\s*\(\s*([^)]+)\s*\)\s*,\s*\.S\s*\(\s*([^)]+)\s*\)\s*,\s*\.Y\s*\(\s*([^)]+)\s*\)\s*\);`.
Returns the four port groups (A, B, S, Y). -/
def matchMux2 (line : List Char) : Option (List Char × List Char × List Char × List Char) :=
  let l1 := line.dropWhile isWs
  if startsWithL l1 ['M', 'U', 'X', '2'] then
    let r1 := l1.drop 4
    let w := r1.takeWhile isWs
    match w with
    | [] => none
    | _ :: _ =>
      let r2 := r1.drop w.length
      let inst := r2.takeWhile isWordChar
      match inst with
      | [] => none
      | _ :: _ =>
        match eatWsLit (r2.drop inst.length) ['('] with
        | none => none
        | some r3 =>
          match eatWsLit r3 ['.', 'A'] with
          | none => none
          | some r4 =>
            match eatWsLit r4 ['('] with
            | none => none
            | some r5 =>
              match matchParenGroup r5 with
              | none => none
              | some (ga, r6) =>
                match eatWsLit r6 [','] with
                | none => none
                | some r7 =>
                  match eatWsLit r7 ['.', 'B'] with
                  | none => none
                  | some r8 =>
                    match eatWsLit r8 ['('] with
                    | none => none
                    | some r9 =>
                      match matchParenGroup r9 with
                      | none => none
                      | some (gb, r10) =>
                        match eatWsLit r10 [','] with
                        | none => none
                        | some r11 =>
                          match eatWsLit r11 ['.', 'S'] with
                          | none => none
                          | some r12 =>
                            match eatWsLit r12 ['('] with
                            | none => none
                            | some r13 =>
                              match matchParenGroup r13 with
                              | none => none
                              | some (gs, r14) =>
                                match eatWsLit r14 [','] with
                                | none => none
                                | some r15 =>
                                  match eatWsLit r15 ['.', 'Y'] with
                                  | none => none
                                  | some r16 =>
                                    match eatWsLit r16 ['('] with
                                    | none => none
                                    | some r17 =>
                                      match matchParenGroup r17 with
                                      | none => none
                                      | some (gy, r18) =>
                                        match eatWsLit r18 [')'] with
                                        | none => none
                                        | some r19 =>
                                          match r19 with
                                          | ';' :: _ => some (ga, gb, gs, gy)
                                          | _ => none
  else none

/-- Atom of the negated-signal and all-signals patterns of
detect_gate_type: an escaped identifier (backslash then one or more
characters outside whitespace, ampersand, pipe, caret) or a plain
identifier with optional subscript.  Returns the consumed length. -/
def matchNegAtom (l : List Char) : Option Nat :=
  match l with
  | '\\' :: rest =>
    let tok := rest.takeWhile (fun ch => ¬ isWs ch ∧ ch ≠ '&' ∧ ch ≠ '|' ∧ ch ≠ '^')
    if tok = [] then none else some (1 + tok.length)
  | _ => (matchIdentTok l).map List.length

/-- Recursion core of countNegMatches, with a structural fuel bound:
every step consumes at least one character, so fuel equal to the input
length never runs out. -/
def countNegMatchesAux : Nat → List Char → Nat
  | 0, _ => 0
  | _ + 1, [] => 0
  | fuel + 1, c :: rest =>
    if c = '~' then
      let w := (rest.takeWhile isWs).length
      match matchNegAtom (rest.drop w) with
      | some n => 1 + countNegMatchesAux fuel (rest.drop (w + n))
      | none => countNegMatchesAux fuel rest
    else countNegMatchesAux fuel rest

/-- Embeds re.findall of the negated-signal pattern
`~\s*(?:\\[^\s&|^]+|[A-Za-z_]\w*(?:\[\d+\])?)` as a match count: scan
left to right; at a tilde, skip whitespace and require an atom. -/
def countNegMatches (l : List Char) : Nat :=
  countNegMatchesAux l.length l

/-- Recursion core of countAllMatches, with the same structural fuel
bound. -/
def countAllMatchesAux : Nat → List Char → Nat
  | 0, _ => 0
  | _ + 1, [] => 0
  | fuel + 1, c :: rest =>
    if c = '~' then
      let w := (rest.takeWhile isWs).length
      match matchNegAtom (rest.drop w) with
      | some n => 1 + countAllMatchesAux fuel (rest.drop (w + n))
      | none => countAllMatchesAux fuel rest
    else
      match matchNegAtom (c :: rest) with
      | some n => 1 + countAllMatchesAux fuel ((c :: rest).drop n)
      | none => countAllMatchesAux fuel rest

/-- Embeds re.findall of the all-signals pattern
`(?:~\s*)?(?:\\[^\s&|^]+|[A-Za-z_]\w*(?:\[\d+\])?)` as a match count:
the tilde prefix is optional. -/
def countAllMatches (l : List Char) : Nat :=
  countAllMatchesAux l.length l

/-- Embeds detect_gate_type: operator counts on the stripped expression,
decision rules in source order.  The NOR / NAND rules additionally
require at least two negated-signal matches and that the negated-signal
and all-signals match counts agree. -/
def detect_gate_type (expression : List Char) : String :=
  let expr := trimWs expression
  let andC := expr.count '&'
  let orC := expr.count '|'
  let xorC := expr.count '^'
  let notC := expr.count '~'
  if startsWithL expr ['~'] ∧ andC = 0 ∧ orC = 0 ∧ xorC = 0 then "NOT"
  else if andC > 0 ∧ orC = 0 ∧ xorC = 0 ∧ notC ≥ 2 ∧
      countNegMatches expr ≥ 2 ∧ countNegMatches expr = countAllMatches expr then
    "NOR"
  else if orC > 0 ∧ andC = 0 ∧ xorC = 0 ∧ notC ≥ 2 ∧
      countNegMatches expr ≥ 2 ∧ countNegMatches expr = countAllMatches expr then
    "NAND"
  else if xorC > 0 ∧ andC = 0 ∧ orC = 0 then "XOR"
  else if andC > 0 ∧ orC = 0 ∧ xorC = 0 then "AND"
  else if orC > 0 ∧ andC = 0 ∧ xorC = 0 then "OR"
  else "ASSIGN"

/-- The delay table GATE_DELAY of src/sta/Verilog_Parcer.py, in seconds
as exact rationals. -/
def GATE_DELAY : String → ℚ
  | "ASSIGN" => 1/1000
  | "COMB_ALWAYS" => 2/100
  | "NOT" => 1/100
  | "AND" => 2/100
  | "OR" => 4/100
  | "XOR" => 3/100
  | "NAND" => 25/1000
  | "NOR" => 45/1000
  | "MUX2_NOT" => 5/100
  | "MUX2_AND" => 7/100
  | "MUX2_OR" => 8/100
  | _ => 0

/-- Insert a node (networkx G.add_node): no effect when present. -/
def DiGraph.addNode (G : DiGraph) (n : String) : DiGraph :=
  if n ∈ G.nodes then G else ⟨G.nodes ++ [n], G.edges⟩

/-- Insert an edge with a delay attribute (networkx G.add_edge): missing
endpoints are registered; an existing (u, v) edge keeps its position and
has its delay overwritten. -/
def DiGraph.addEdge (G : DiGraph) (u v : String) (d : ℚ) : DiGraph :=
  let G1 := (G.addNode u).addNode v
  if G1.hasEdge u v then
    ⟨G1.nodes, G1.edges.map (fun e => if e.1 = u ∧ e.2.1 = v then (u, v, d) else e)⟩
  else ⟨G1.nodes, G1.edges ++ [(u, v, d)]⟩

/-- Insert into a Python set modelled as a duplicate-free list. -/
def addOnce (l : List String) (x : String) : List String :=
  if x ∈ l then l else l ++ [x]

/-- The per-line state of parse_verilog_to_dag: the graph under
construction, the two register-boundary sets, the two always-block
flags, and the MUX2 expansion counter. -/
structure PState where
  G : DiGraph
  ff_q_nets : List String
  d_nets : List String
  in_seq : Bool
  in_comb : Bool
  mux2_counter : Nat
deriving DecidableEq, Repr

/-- The state before the first line. -/
def PState.init : PState := ⟨⟨[], []⟩, [], [], false, false, 0⟩

/-- Processing of one line of the netlist by parse_verilog_to_dag, in
source order: always-block entry, block exit, clocked-block register
detection (Q and D nets, no edges), combinational-block edges, MUX2
expansion, continuous assignment. -/
def lineStep (st : PState) (line : List Char) : PState :=
  let stripped := trimWs line
  if startsWithL stripped ['a', 'l', 'w', 'a', 'y', 's'] then
    if containsL stripped ['p', 'o', 's', 'e', 'd', 'g', 'e'] ∨
        containsL stripped ['n', 'e', 'g', 'e', 'd', 'g', 'e'] then
      { st with in_seq := true, in_comb := false }
    else
      { st with in_comb := true, in_seq := false }
  else if (st.in_seq ∨ st.in_comb) ∧ startsWithL stripped ['e', 'n', 'd'] then
    { st with in_seq := false, in_comb := false }
  else if st.in_seq then
    match matchProcAssign line with
    | some (lhs, _, rhs) =>
      let lhsS := String.mk (trimWs lhs)
      let st1 := { st with
        ff_q_nets := addOnce st.ff_q_nets lhsS,
        G := st.G.addNode lhsS }
      (findSignals rhs).foldl
        (fun s tok =>
          let tokS := String.mk (trimWs tok)
          if tokS = "" then s
          else { s with
            d_nets := addOnce s.d_nets tokS,
            G := s.G.addNode tokS })
        st1
    | none => st
  else if st.in_comb then
    match matchProcAssign line with
    | some (lhs, _, rhs) =>
      let lhsS := String.mk (trimWs lhs)
      let rhs2 := trimWs rhs
      let delay := GATE_DELAY (detect_gate_type rhs2)
      (findSignals rhs2).foldl
        (fun s tok =>
          let tokS := String.mk (trimWs tok)
          if tokS = "" then s
          else { s with
            G := ((s.G.addNode tokS).addNode lhsS).addEdge tokS lhsS delay })
        st
    | none => st
  else
    match matchMux2 line with
    | some (ga, gb, gs, gy) =>
      let a := String.mk (trimWs ga)
      let b := String.mk (trimWs gb)
      let sS := String.mk (trimWs gs)
      let y := String.mk (trimWs gy)
      let cnt := st.mux2_counter + 1
      let nS := "mux2_nS_" ++ toString cnt
      let t0 := "mux2_t0_" ++ toString cnt
      let t1 := "mux2_t1_" ++ toString cnt
      let G0 := ((((((st.G.addNode a).addNode b).addNode sS).addNode
        nS).addNode t0).addNode t1).addNode y
      let G1 := G0.addEdge sS nS (GATE_DELAY "MUX2_NOT")
      let G2 := G1.addEdge a t0 (GATE_DELAY "MUX2_AND")
      let G3 := G2.addEdge nS t0 (GATE_DELAY "MUX2_AND")
      let G4 := G3.addEdge b t1 (GATE_DELAY "MUX2_AND")
      let G5 := G4.addEdge sS t1 (GATE_DELAY "MUX2_AND")
      let G6 := G5.addEdge t0 y (GATE_DELAY "MUX2_OR")
      let G7 := G6.addEdge t1 y (GATE_DELAY "MUX2_OR")
      { st with G := G7, mux2_counter := cnt }
    | none =>
      match matchAssign line with
      | some (lhsRaw, rhsRaw) =>
        let lhsS := String.mk (trimWs lhsRaw)
        let rhs2 := trimWs rhsRaw
        let delay := GATE_DELAY (detect_gate_type rhs2)
        (findSignals rhs2).foldl
          (fun s tok =>
            let tokS := String.mk (trimWs tok)
            if tokS = "" then s
            else { s with
              G := ((s.G.addNode tokS).addNode lhsS).addEdge tokS lhsS delay })
          st
      | none => st

/-- Embeds parse_verilog_to_dag: fold the line processor over the lines
of the file (its splitlines, hence free of line terminators) and return
the graph, the Q-net set and the D-net set. -/
def parse_verilog_to_dag (lines : List (List Char)) :
    DiGraph × List String × List String :=
  let st := lines.foldl lineStep PState.init
  (st.G, st.ff_q_nets, st.d_nets)

/-- A plain (unescaped, unsubscripted) identifier: a letter or
underscore followed by word characters, as in the first alternative of
signal_re. -/
def isPlainIdent (l : List Char) : Bool :=
  match l with
  | [] => false
  | c :: rest => isAlphaU c && rest.all isWordChar

/-- A non-blocking assignment line: optional leading whitespace, the
target register, ` <= `, the driving net and `;`. -/
def nbaLine (w q d : List Char) : List Char :=
  w ++ q ++ (' ' :: '<' :: '=' :: ' ' :: (d ++ [';']))

/-!
Concrete inputs used by the theorems below.
-/

/-- A two-node graph a -> b with delay 1, whose sink is the endpoint. -/
def bwdBugGraph : DiGraph := ⟨["a", "b"], [("a", "b", 1)]⟩

/-- The continuous-assignment line of spec scenario S4. -/
def norLine : List Char := "assign y = ~a & ~b;".toList

/-- The right-hand side of norLine as seen by the classifier. -/
def norExpr : List Char := "~a & ~b".toList

/-- The MUX2 instance line of spec scenario S3. -/
def muxLine : List Char := "MUX2 u ( .A(a), .B(b), .S(s), .Y(y) );".toList

/-- The graph used to instantiate the slack-computation theorem. -/
def slackWG : DiGraph := ⟨["a", "b"], [("a", "b", 1/2)]⟩

/-!
General lemmas about association lists and fold-minimum.
-/

/-- Lookup in a map built over a key list at one of its keys. -/
theorem getV_map_self {α β : Type} [DecidableEq α] (f : α → β) {l : List α} {n : α}
    (h : n ∈ l) : getV (l.map (fun x => (x, f x))) n = some (f n) := by
  induction l with
  | nil => cases h
  | cons x xs ih =>
    simp only [List.map_cons, getV]
    by_cases hx : x = n
    · subst hx
      simp
    · rcases List.mem_cons.mp h with h1 | h1
      · exact absurd h1.symm hx
      · simp only [if_neg hx]
        exact ih h1

/-- Lookup in a map keyed by an injective-on-the-list projection. -/
theorem getV_keyed_nodup {α β γ : Type} [DecidableEq α] (key : γ → α) (f : γ → β)
    {l : List γ} {e : γ} (he : e ∈ l) (hnd : (l.map key).Nodup) :
    getV (l.map (fun x => (key x, f x))) (key e) = some (f e) := by
  induction l with
  | nil => cases he
  | cons x xs ih =>
    simp only [List.map_cons, getV]
    rcases List.mem_cons.mp he with h1 | h1
    · subst h1
      simp
    · have hne : key x ≠ key e := by
        intro hk
        have hmem : key e ∈ xs.map key := List.mem_map_of_mem key h1
        rw [← hk] at hmem
        exact (List.nodup_cons.mp (by simpa using hnd)).1 hmem
      simp only [if_neg hne]
      exact ih h1 (List.nodup_cons.mp (by simpa using hnd)).2

/-- The left fold of min is a lower bound of the folded elements. -/
theorem foldl_min_le {γ : Type} [LinearOrder γ] :
    ∀ (xs : List γ) (x : γ), ∀ s ∈ x :: xs, xs.foldl min x ≤ s := by
  intro xs
  induction xs with
  | nil =>
    intro x s hs
    rcases List.mem_cons.mp hs with h | h
    · subst h; simp
    · cases h
  | cons y ys ih =>
    intro x s hs
    simp only [List.foldl_cons]
    rcases List.mem_cons.mp hs with h | h
    · rw [h]
      exact le_trans (ih (min x y) (min x y) (List.mem_cons_self _ _)) (min_le_left _ _)
    · rcases List.mem_cons.mp h with h1 | h1
      · rw [h1]
        exact le_trans (ih (min x y) (min x y) (List.mem_cons_self _ _)) (min_le_right _ _)
      · exact ih (min x y) s (List.mem_cons_of_mem _ h1)

/-- The left fold of min is one of the folded elements. -/
theorem foldl_min_mem {γ : Type} [LinearOrder γ] :
    ∀ (xs : List γ) (x : γ), xs.foldl min x ∈ x :: xs := by
  intro xs
  induction xs with
  | nil => intro x; simp
  | cons y ys ih =>
    intro x
    simp only [List.foldl_cons]
    rcases List.mem_cons.mp (ih (min x y)) with h | h
    · rcases min_choice x y with hc | hc
      · rw [h, hc]; exact List.mem_cons_self _ _
      · rw [h, hc]
        exact List.mem_cons_of_mem _ (List.mem_cons_self _ _)
    · exact List.mem_cons_of_mem _ (List.mem_cons_of_mem _ h)

/-- Updating an existing key leaves the key list unchanged. -/
theorem keysOf_setV {α β : Type} [DecidableEq α] (m : List (α × β)) (k : α) (v : β) :
    keysOf (setV m k v) = keysOf m := by
  induction m with
  | nil => rfl
  | cons p rest ih =>
    simp only [setV, keysOf, List.map_cons] at ih ⊢
    by_cases hp : p.1 = k
    · rw [if_pos hp, hp]
      exact congrArg _ ih
    · rw [if_neg hp]
      exact congrArg _ ih

/-- A lookup succeeds exactly on the keys of the list. -/
theorem getV_isSome_iff {α β : Type} [DecidableEq α] (m : List (α × β)) (k : α) :
    (getV m k).isSome = true ↔ k ∈ keysOf m := by
  induction m with
  | nil => simp [getV, keysOf]
  | cons p rest ih =>
    simp only [getV, keysOf, List.map_cons, List.mem_cons]
    by_cases hp : p.1 = k
    · simp [hp]
    · rw [if_neg hp]
      simp only [keysOf] at ih
      rw [ih]
      constructor
      · exact Or.inr
      · rintro (h | h)
        · exact absurd h.symm hp
        · exact h

/-- Lookup of a key outside the key list fails. -/
theorem getV_eq_none {α β : Type} [DecidableEq α] {m : List (α × β)} {k : α}
    (h : k ∉ keysOf m) : getV m k = none := by
  cases hg : getV m k with
  | none => rfl
  | some b =>
    exact absurd ((getV_isSome_iff m k).mp (by rw [hg]; rfl)) h

/-- A left fold preserves any property its step preserves. -/
theorem foldl_preserves {σ γ : Type} (P : σ → Prop) (f : σ → γ → σ)
    (hf : ∀ s x, P s → P (f s x)) :
    ∀ (l : List γ) (s : σ), P s → P (l.foldl f s) := by
  intro l
  induction l with
  | nil => intro s hs; exact hs
  | cons x xs ih => intro s hs; exact ih (f s x) (hf s x hs)

/-- The key list of a map built over a node list. -/
theorem keysOf_map_mk {α β : Type} (f : α → β) (l : List α) :
    keysOf (l.map (fun x => (x, f x))) = l := by
  induction l with
  | nil => rfl
  | cons x xs ih =>
    simp only [keysOf, List.map_cons] at ih ⊢
    exact congrArg _ ih

/-- The guarded seeding step (write only if the key is present) keeps the
key list. -/
theorem keysOf_seed_fold {α β γ : Type} [DecidableEq α]
    (key : γ → α) (g : γ → β) (l : List γ) (m : List (α × β)) :
    keysOf (l.foldl
      (fun m x => if (getV m (key x)).isSome then setV m (key x) (g x) else m) m)
      = keysOf m := by
  have := foldl_preserves (fun m2 => keysOf m2 = keysOf m)
    (fun m2 x => if (getV m2 (key x)).isSome then setV m2 (key x) (g x) else m2)
    (by
      intro s x hs
      dsimp only
      by_cases hg : (getV s (key x)).isSome
      · rw [if_pos hg, keysOf_setV]
        exact hs
      · rw [if_neg hg]
        exact hs)
    l m rfl
  exact this

/-- A guarded seeding fold skips an element whose key is outside the map:
the element contributes nothing. -/
theorem seed_fold_skip {α β γ : Type} [DecidableEq α]
    (key : γ → α) (g : γ → β) (l1 l2 : List γ) (x0 : γ) (m : List (α × β))
    (hx : key x0 ∉ keysOf m) :
    (l1 ++ x0 :: l2).foldl
      (fun m x => if (getV m (key x)).isSome then setV m (key x) (g x) else m) m
      = (l1 ++ l2).foldl
        (fun m x => if (getV m (key x)).isSome then setV m (key x) (g x) else m) m := by
  rw [List.foldl_append, List.foldl_append, List.foldl_cons]
  have hkeys : keysOf (l1.foldl
      (fun m x => if (getV m (key x)).isSome then setV m (key x) (g x) else m) m)
      = keysOf m := keysOf_seed_fold key g l1 m
  have hnone : getV (l1.foldl
      (fun m x => if (getV m (key x)).isSome then setV m (key x) (g x) else m) m)
      (key x0) = none := getV_eq_none (by rw [hkeys]; exact hx)
  rw [hnone]
  rfl

/-- One forward-sweep edge step keeps the key lists of both maps. -/
theorem keysOf_fwdEdgeStep (eps : ℚ) (u : String) (au : ERat) (st : FState)
    (e : String × String × ℚ) :
    keysOf (fwdEdgeStep eps u au st e).1 = keysOf st.1 ∧
    keysOf (fwdEdgeStep eps u au st e).2 = keysOf st.2 := by
  unfold fwdEdgeStep
  dsimp only
  split
  · exact ⟨keysOf_setV _ _ _, keysOf_setV _ _ _⟩
  · split
    · exact ⟨rfl, keysOf_setV _ _ _⟩
    · exact ⟨rfl, rfl⟩

/-- One forward-sweep node step keeps the key lists of both maps. -/
theorem keysOf_fwdNodeStep (G : DiGraph) (eps : ℚ) (st : FState) (u : String) :
    keysOf (fwdNodeStep G eps st u).1 = keysOf st.1 ∧
    keysOf (fwdNodeStep G eps st u).2 = keysOf st.2 := by
  unfold fwdNodeStep
  cases hg : getV st.1 u with
  | none => exact ⟨rfl, rfl⟩
  | some au =>
    cases au with
    | ninf => exact ⟨rfl, rfl⟩
    | fin a =>
      exact foldl_preserves
        (fun s2 => keysOf s2.1 = keysOf st.1 ∧ keysOf s2.2 = keysOf st.2)
        (fwdEdgeStep eps u (ERat.fin a))
        (fun s2 e hs2 => ⟨(keysOf_fwdEdgeStep eps u _ s2 e).1.trans hs2.1,
          (keysOf_fwdEdgeStep eps u _ s2 e).2.trans hs2.2⟩)
        (G.outEdges u) st ⟨rfl, rfl⟩
    | pinf =>
      exact foldl_preserves
        (fun s2 => keysOf s2.1 = keysOf st.1 ∧ keysOf s2.2 = keysOf st.2)
        (fwdEdgeStep eps u ERat.pinf)
        (fun s2 e hs2 => ⟨(keysOf_fwdEdgeStep eps u _ s2 e).1.trans hs2.1,
          (keysOf_fwdEdgeStep eps u _ s2 e).2.trans hs2.2⟩)
        (G.outEdges u) st ⟨rfl, rfl⟩

/-- A startpoint override for a net that is not a node contributes
nothing to the forward result. -/
theorem forward_skip_unknown_override (G : DiGraph)
    (topo startpoints : List String) (clock_to_q eps : ℚ)
    (ov1 ov2 : List (String × ℚ)) (k : String) (v : ℚ) (hk : k ∉ G.nodes) :
    forward_arrival_times G topo startpoints clock_to_q (ov1 ++ (k, v) :: ov2) eps
      = forward_arrival_times G topo startpoints clock_to_q (ov1 ++ ov2) eps := by
  have hkeys0 : keysOf (G.nodes.map (fun n => (n, ERat.ninf))) = G.nodes :=
    keysOf_map_mk _ _
  have hkeysAT1 : keysOf (startpoints.foldl
      (fun m s => if (getV m s).isSome then setV m s (ERat.fin clock_to_q) else m)
      (G.nodes.map (fun n => (n, ERat.ninf)))) = G.nodes := by
    have h := keysOf_seed_fold (fun s : String => s)
      (fun _ : String => ERat.fin clock_to_q) startpoints
      (G.nodes.map (fun n => (n, ERat.ninf)))
    rw [hkeys0] at h
    exact h
  have hskip := seed_fold_skip Prod.fst (fun p : String × ℚ => ERat.fin p.2)
    ov1 ov2 (k, v)
    (startpoints.foldl
      (fun m s => if (getV m s).isSome then setV m s (ERat.fin clock_to_q) else m)
      (G.nodes.map (fun n => (n, ERat.ninf))))
    (by rw [hkeysAT1]; exact hk)
  exact congrArg (fun m => topo.foldl (fwdNodeStep G eps)
    (m, G.nodes.map (fun n => (n, ([] : List String))))) hskip

/-- An endpoint override for a net that is not a node contributes
nothing to the backward result. -/
theorem backward_skip_unknown_override (G : DiGraph)
    (topo endpoints : List String) (Tclk setup : ℚ)
    (eov1 eov2 : List (String × ℚ)) (k : String) (w : ℚ) (hk : k ∉ G.nodes) :
    backward_required_times G topo endpoints Tclk setup (eov1 ++ (k, w) :: eov2)
      = backward_required_times G topo endpoints Tclk setup (eov1 ++ eov2) := by
  have hkeys0 : keysOf (G.nodes.map (fun n => (n, ERat.pinf))) = G.nodes :=
    keysOf_map_mk _ _
  have hkeysRT1 : keysOf (endpoints.foldl
      (fun m e => if (getV m e).isSome then setV m e (ERat.fin (Tclk - setup)) else m)
      (G.nodes.map (fun n => (n, ERat.pinf)))) = G.nodes := by
    have h := keysOf_seed_fold (fun s : String => s)
      (fun _ : String => ERat.fin (Tclk - setup)) endpoints
      (G.nodes.map (fun n => (n, ERat.pinf)))
    rw [hkeys0] at h
    exact h
  exact seed_fold_skip Prod.fst (fun p : String × ℚ => ERat.fin p.2) eov1 eov2 (k, w)
    (endpoints.foldl
      (fun m e => if (getV m e).isSome then setV m e (ERat.fin (Tclk - setup)) else m)
      (G.nodes.map (fun n => (n, ERat.pinf))))
    (by rw [hkeysRT1]; exact hk)

/-- An endpoint seed for a net that is not a node contributes nothing to
the backward result. -/
theorem backward_skip_unknown_endpoint (G : DiGraph)
    (topo es1 es2 : List String) (Tclk setup : ℚ)
    (eov : List (String × ℚ)) (k : String) (hk : k ∉ G.nodes) :
    backward_required_times G topo (es1 ++ k :: es2) Tclk setup eov
      = backward_required_times G topo (es1 ++ es2) Tclk setup eov := by
  have hkeys0 : keysOf (G.nodes.map (fun n => (n, ERat.pinf))) = G.nodes :=
    keysOf_map_mk _ _
  have hskip := seed_fold_skip (fun s : String => s)
    (fun _ : String => ERat.fin (Tclk - setup)) es1 es2 k
    (G.nodes.map (fun n => (n, ERat.pinf)))
    (by rw [hkeys0]; exact hk)
  exact congrArg (fun m1 => eov.foldl
    (fun m p => if (getV m p.1).isSome then setV m p.1 (ERat.fin p.2) else m) m1) hskip

/-- Reading back the key just written: some when the key was present
(the guarded write semantics of setV). -/
theorem getV_setV_self {α β : Type} [DecidableEq α] (m : List (α × β)) (k : α) (val : β) :
    getV (setV m k val) k = (getV m k).map (fun _ => val) := by
  induction m with
  | nil => rfl
  | cons p rest ih =>
    simp only [setV, getV, List.map_cons] at ih ⊢
    by_cases hp : p.1 = k
    · rw [if_pos hp]
      simp [getV, hp]
    · rw [if_neg hp]
      simp only [getV, if_neg hp]
      exact ih

/-- Writing one key does not change the others. -/
theorem getV_setV_ne {α β : Type} [DecidableEq α] (m : List (α × β)) {k v : α} (val : β)
    (h : v ≠ k) : getV (setV m k val) v = getV m v := by
  induction m with
  | nil => rfl
  | cons p rest ih =>
    simp only [setV, getV, List.map_cons] at ih ⊢
    by_cases hp : p.1 = k
    · rw [if_pos hp]
      have : ¬(k = v) := fun he => h he.symm
      simp only [getV, if_neg this, if_neg (hp ▸ this : ¬(p.1 = v))]
      exact ih
    · rw [if_neg hp]
      by_cases hp2 : p.1 = v
      · rw [if_pos hp2, if_pos hp2]
      · rw [if_neg hp2, if_neg hp2]
        exact ih

/-- A binding found in a map built over a key list carries the value of
the building function at that key. -/
theorem getV_map_mk_eq {α β : Type} [DecidableEq α] (f : α → β) (l : List α)
    (k : α) (b : β) (h : getV (l.map (fun x => (x, f x))) k = some b) : b = f k := by
  induction l with
  | nil => cases h
  | cons x xs ih =>
    simp only [List.map_cons, getV] at h
    by_cases hx : x = k
    · rw [if_pos hx] at h
      injection h with h1
      rw [← h1, hx]
    · rw [if_neg hx] at h
      exact ih h

/-- One edge step of the forward sweep only writes the processed node
(the source of a graph edge into the written key) into backpred. -/
theorem fwdEdgeStep_backpred (G : DiGraph) (eps : ℚ) (u0 : String) (au : ERat)
    (st : FState) (e : String × String × ℚ)
    (he : e ∈ G.edges) (he1 : e.1 = u0)
    (hst : ∀ v bl u, getV st.2 v = some bl → u ∈ bl → ∃ d, (u, v, d) ∈ G.edges) :
    ∀ v bl u, getV (fwdEdgeStep eps u0 au st e).2 v = some bl → u ∈ bl →
      ∃ d, (u, v, d) ∈ G.edges := by
  intro v bl u hg hu
  have hedge : (u0, e.2.1, e.2.2) ∈ G.edges := by
    have : (u0, e.2.1, e.2.2) = e := by rw [← he1]
    rw [this]
    exact he
  unfold fwdEdgeStep at hg
  dsimp only at hg
  split at hg
  · by_cases hv : v = e.2.1
    · rw [hv] at hg
      rw [getV_setV_self] at hg
      cases hb : getV st.2 e.2.1 with
      | none => rw [hb] at hg; cases hg
      | some old =>
        rw [hb] at hg
        injection hg with h1
        rw [← h1] at hu
        have hu0 : u = u0 := by simpa using hu
        subst hu0
        exact ⟨e.2.2, hv ▸ hedge⟩
    · rw [getV_setV_ne _ _ hv] at hg
      exact hst v bl u hg hu
  · split at hg
    · by_cases hv : v = e.2.1
      · rw [hv] at hg
        rw [getV_setV_self] at hg
        cases hb : getV st.2 e.2.1 with
        | none => rw [hb] at hg; cases hg
        | some old =>
          rw [hb] at hg
          injection hg with h1
          rw [← h1] at hu
          simp only [Option.getD_some] at hu
          rcases List.mem_append.mp hu with h2 | h2
          · exact hst v old u (hv ▸ hb) h2
          · have hu0 : u = u0 := by simpa using h2
            subst hu0
            exact ⟨e.2.2, hv ▸ hedge⟩
      · rw [getV_setV_ne _ _ hv] at hg
        exact hst v bl u hg hu
    · exact hst v bl u hg hu

/-- One node step of the forward sweep only writes sources of graph
edges into backpred. -/
theorem fwdNodeStep_backpred (G : DiGraph) (eps : ℚ) (st : FState) (u0 : String)
    (hst : ∀ v bl u, getV st.2 v = some bl → u ∈ bl → ∃ d, (u, v, d) ∈ G.edges) :
    ∀ v bl u, getV (fwdNodeStep G eps st u0).2 v = some bl → u ∈ bl →
      ∃ d, (u, v, d) ∈ G.edges := by
  have haux : ∀ (au : ERat) (E : List (String × String × ℚ)),
      (∀ e ∈ E, e ∈ G.edges ∧ e.1 = u0) →
      ∀ st2 : FState,
      (∀ v bl u, getV st2.2 v = some bl → u ∈ bl → ∃ d, (u, v, d) ∈ G.edges) →
      ∀ v bl u, getV (E.foldl (fwdEdgeStep eps u0 au) st2).2 v = some bl → u ∈ bl →
        ∃ d, (u, v, d) ∈ G.edges := by
    intro au E
    induction E with
    | nil => intro _ st2 h2; exact h2
    | cons e E' ih =>
      intro hE st2 h2
      simp only [List.foldl_cons]
      exact ih (fun e2 he2 => hE e2 (List.mem_cons_of_mem _ he2)) _
        (fwdEdgeStep_backpred G eps u0 au st2 e
          (hE e (List.mem_cons_self _ _)).1 (hE e (List.mem_cons_self _ _)).2 h2)
  have houtE : ∀ e ∈ G.outEdges u0, e ∈ G.edges ∧ e.1 = u0 := by
    intro e he
    have := List.mem_filter.mp he
    exact ⟨this.1, by simpa using this.2⟩
  unfold fwdNodeStep
  cases hgu : getV st.1 u0 with
  | none => exact hst
  | some au =>
    cases au with
    | ninf => exact hst
    | fin a => exact haux (ERat.fin a) (G.outEdges u0) houtE st hst
    | pinf => exact haux ERat.pinf (G.outEdges u0) houtE st hst

/-- Every recorded back-predecessor is the source of a graph edge into
its node. -/
theorem backpred_mem_edges (G : DiGraph) (topo sps : List String) (c2q : ℚ)
    (ov : List (String × ℚ)) (eps : ℚ) :
    ∀ v bl u, getV (forward_arrival_times G topo sps c2q ov eps).2 v = some bl →
      u ∈ bl → ∃ d, (u, v, d) ∈ G.edges := by
  intro v bl u hg hu
  exact foldl_preserves
    (fun st : FState => ∀ v bl u, getV st.2 v = some bl → u ∈ bl →
      ∃ d, (u, v, d) ∈ G.edges)
    (fwdNodeStep G eps)
    (fun st u1 h => fwdNodeStep_backpred G eps st u1 h)
    topo
    (ov.foldl
      (fun (m : List (String × ERat)) (p : String × ℚ) =>
        if (getV m p.1).isSome then setV m p.1 (ERat.fin p.2) else m)
      (sps.foldl
        (fun (m : List (String × ERat)) (s : String) =>
          if (getV m s).isSome then setV m s (ERat.fin c2q) else m)
        (G.nodes.map (fun n => (n, ERat.ninf)))),
     G.nodes.map (fun n => (n, ([] : List String))))
    (by
      intro v2 bl2 u2 hg2 hu2
      have hb := getV_map_mk_eq (fun _ => ([] : List String)) G.nodes v2 bl2 hg2
      rw [hb] at hu2
      cases hu2)
    v bl u hg hu

/-- Every edge recorded by the backward trace comes from the backpred
map, hence is a graph edge when backpred only holds edge sources. -/
theorem traceLoop_edges (G : DiGraph) (sps : List String)
    (bp : List (String × List String))
    (hbp : ∀ v bl u, getV bp v = some bl → u ∈ bl → ∃ d, (u, v, d) ∈ G.edges) :
    ∀ (fuel : Nat) (cur : String) (pn : List String)
      (pe : List (String × String)),
      (∀ e ∈ pe, ∃ d, (e.1, e.2, d) ∈ G.edges) →
      ∀ e ∈ (traceLoop sps bp fuel cur pn pe).2, ∃ d, (e.1, e.2, d) ∈ G.edges := by
  intro fuel
  induction fuel with
  | zero => intro cur pn pe hpe e he; exact hpe e he
  | succ n ih =>
    intro cur pn pe hpe e he
    simp only [traceLoop] at he
    split at he
    · exact hpe e he
    · split at he
      · exact hpe e he
      · exact hpe e he
      · rename_i pred rest hbl
        refine ih pred _ _ ?_ e he
        intro e2 he2
        rcases List.mem_append.mp he2 with h2 | h2
        · exact hpe e2 h2
        · have : e2 = (pred, cur) := by simpa using h2
          rw [this]
          exact hbp cur (pred :: rest) pred hbl (List.mem_cons_self _ _)

/-- Every edge of a path emitted by extract_single_critical_path is an
edge of the analyzed graph. -/
theorem extract_path_edges_sub (G : DiGraph) (startpoints endpoints : List String)
    (Tclk setup clock_to_q : ℚ) (spo epo : List (String × ℚ)) (eps : ℚ)
    (p : PathInfo)
    (h : extract_single_critical_path G startpoints endpoints Tclk setup
      clock_to_q spo epo eps = Except.ok (some p)) :
    ∀ e ∈ p.edges, ∃ d, (e.1, e.2, d) ∈ G.edges := by
  unfold extract_single_critical_path at h
  split at h
  · cases h
  · rename_i res hres
    have hbp : ∀ v bl u, getV res.backpred v = some bl → u ∈ bl →
        ∃ d, (u, v, d) ∈ G.edges := by
      unfold run_sta at hres
      split at hres
      · cases hres
      · rename_i topo htopo
        simp only [Except.ok.injEq] at hres
        rw [← hres]
        exact fun v bl u hg hu =>
          backpred_mem_edges G topo startpoints clock_to_q spo eps v bl u hg hu
    dsimp only at h
    split at h
    · cases h
    · rename_i e0 erest
      split at h
      · cases h
      · simp only [Except.ok.injEq, Option.some.injEq] at h
        rw [← h]
        intro e he
        dsimp only at he
        rw [List.mem_reverse] at he
        exact traceLoop_edges G startpoints res.backpred hbp
          (G.nodes.length + 1) _ [] [] (fun e2 he2 => absurd he2 (List.not_mem_nil e2))
          e he

/-- After the guarded removal fold, no removed pair remains an edge of
the working graph, and no new edge appears. -/
theorem removal_fold_absent (l : List (String × String)) :
    ∀ (w0 : DiGraph),
      ((l.foldl (fun g uv => if g.hasEdge uv.1 uv.2 then g.removeEdge uv.1 uv.2 else g)
        w0).edges ⊆ w0.edges) ∧
      (∀ e ∈ l, ∀ d, (e.1, e.2, d) ∉
        (l.foldl (fun g uv => if g.hasEdge uv.1 uv.2 then g.removeEdge uv.1 uv.2 else g)
          w0).edges) := by
  induction l with
  | nil =>
    intro w0
    exact ⟨fun e he => he, fun e he => absurd he (List.not_mem_nil e)⟩
  | cons uv rest ih =>
    intro w0
    simp only [List.foldl_cons]
    have hstep_sub : (if w0.hasEdge uv.1 uv.2 then w0.removeEdge uv.1 uv.2 else w0).edges
        ⊆ w0.edges := by
      split
      · intro e he
        exact (List.mem_filter.mp he).1
      · exact fun e he => he
    have hstep_gone : ∀ d, (uv.1, uv.2, d) ∉
        (if w0.hasEdge uv.1 uv.2 then w0.removeEdge uv.1 uv.2 else w0).edges := by
      intro d hmem
      by_cases hh : w0.hasEdge uv.1 uv.2
      · rw [if_pos hh] at hmem
        have := (List.mem_filter.mp hmem).2
        simp at this
      · rw [if_neg hh] at hmem
        exact hh (by
          unfold DiGraph.hasEdge
          rw [List.any_eq_true]
          exact ⟨(uv.1, uv.2, d), hmem, by simp⟩)
    refine ⟨fun e he => hstep_sub ((ih _).1 he), ?_⟩
    intro e he d
    rcases List.mem_cons.mp he with h1 | h1
    · intro hmem
      have hmem2 := (ih _).1 hmem
      rw [h1] at hmem2
      exact hstep_gone d hmem2
    · exact (ih _).2 e h1 d

/-- The findKLoop accumulator invariant: emitted paths have their edges
removed from the working copy, and emitted paths are pairwise
edge-disjoint. -/
theorem findKLoop_disjoint (startpoints endpoints : List String)
    (Tclk setup clock_to_q : ℚ)
    (spo epo : List (String × ℚ)) (eps : ℚ) :
    ∀ (k : Nat) (st : KState) (acc : List PathInfo)
      (out : List PathInfo × KState),
      findKLoop startpoints endpoints Tclk setup clock_to_q spo epo eps
        k st acc = Except.ok out →
      (∀ p ∈ acc, ∀ e ∈ p.edges, ∀ d, (e.1, e.2, d) ∉ st.work.edges) →
      acc.Pairwise (fun p q => ∀ e ∈ p.edges, e ∉ q.edges) →
      out.1.Pairwise (fun p q => ∀ e ∈ p.edges, e ∉ q.edges) := by
  intro k
  induction k with
  | zero =>
    intro st acc out h hinv hpw
    simp only [findKLoop, Except.ok.injEq] at h
    rw [← h]
    exact hpw
  | succ n ih =>
    intro st acc out h hinv hpw
    simp only [findKLoop] at h
    split at h
    · cases h
    · simp only [Except.ok.injEq] at h
      rw [← h]
      exact hpw
    · rename_i p hextract
      have hpsub : ∀ e ∈ p.edges, ∃ d, (e.1, e.2, d) ∈ st.work.edges :=
        extract_path_edges_sub st.work startpoints endpoints Tclk setup
          clock_to_q spo epo eps p hextract
      have hrm := removal_fold_absent p.edges st.work
      refine ih _ _ _ h ?_ ?_
      · intro q hq e he d hmem
        rcases List.mem_append.mp hq with h1 | h1
        · exact hinv q h1 e he d (hrm.1 hmem)
        · have hqp : q = p := by simpa using h1
          rw [hqp] at he
          exact hrm.2 e he d hmem
      · rw [List.pairwise_append]
        refine ⟨hpw, List.pairwise_singleton _ _, ?_⟩
        intro q hq p2 hp2 e he hep2
        have hp2p : p2 = p := by simpa using hp2
        rw [hp2p] at hep2
        obtain ⟨d, hd⟩ := hpsub e hep2
        exact hinv q hq e he d hd

/-- The forward-sweep invariant is monotone in the processed set. -/
theorem FwdInv_mono (G : DiGraph) (eps : ℚ) {P P2 : List String} (st : FState)
    (hsub : ∀ x ∈ P, x ∈ P2) (h : FwdInv G eps P st) : FwdInv G eps P2 st := by
  intro v bl u hg hu
  obtain ⟨d, au, av, hd, hP, hau, hav, hle⟩ := h v bl u hg hu
  exact ⟨d, au, av, hd, hsub u hP, hau, hav, hle⟩

/-- One edge step of the forward sweep preserves the invariant, the
equality of the two key lists, and the arrival times of all processed
nodes, provided the edge leaves the node being processed and its target
is unprocessed. -/
theorem fwdEdgeStep_inv_step (G : DiGraph) (eps : ℚ) (heps : 0 ≤ eps)
    (P : List String) (u0 : String) (au : ERat) (st2 : FState)
    (e : String × String × ℚ)
    (he : e ∈ G.edges) (he1 : e.1 = u0) (htP : e.2.1 ∉ P) (htu : e.2.1 ≠ u0)
    (hau0 : getV st2.1 u0 = some au) (hau_ne : au ≠ ERat.ninf)
    (hkeys : keysOf st2.1 = keysOf st2.2)
    (hinv : FwdInv G eps (P ++ [u0]) st2) :
    FwdInv G eps (P ++ [u0]) (fwdEdgeStep eps u0 au st2 e) ∧
    keysOf (fwdEdgeStep eps u0 au st2 e).1 = keysOf (fwdEdgeStep eps u0 au st2 e).2 ∧
    (∀ w, (w ∈ P ∨ w = u0) → getV (fwdEdgeStep eps u0 au st2 e).1 w = getV st2.1 w) := by
  have hedge0 : (u0, e.2.1, e.2.2) ∈ G.edges := by
    have heq : (u0, e.2.1, e.2.2) = e := by rw [← he1]
    rw [heq]
    exact he
  have hwne : ∀ w, (w ∈ P ∨ w = u0) → w ≠ e.2.1 := by
    rintro w (hw | hw) hwe
    · exact htP (hwe ▸ hw)
    · exact htu (hwe ▸ hw.symm ▸ rfl)
  have hmemPu : ∀ u, u ∈ P ++ [u0] → u ∈ P ∨ u = u0 := by
    intro u hu
    rcases List.mem_append.mp hu with h1 | h1
    · exact Or.inl h1
    · exact Or.inr (by simpa using h1)
  have hself_le : ERat.le (ERat.abs (ERat.sub (ERat.add au (ERat.fin e.2.2))
      (ERat.add au (ERat.fin e.2.2)))) (ERat.fin eps) = true := by
    cases au with
    | ninf => exact absurd rfl hau_ne
    | fin a =>
      simp only [ERat.add, ERat.sub, ERat.abs, ERat.le, sub_self, abs_zero,
        decide_eq_true_eq]
      exact heps
    | pinf =>
      simp only [ERat.add, ERat.sub, ERat.abs, ERat.le, abs_zero,
        decide_eq_true_eq]
      exact heps
  unfold fwdEdgeStep
  dsimp only
  split
  · -- strict winner: AT[t] := cand, backpred[t] := [u0]
    refine ⟨?_, ?_, ?_⟩
    · intro v bl u hg hu
      dsimp only at hg ⊢
      by_cases hv : v = e.2.1
      · rw [hv, getV_setV_self] at hg
        cases hb2 : getV st2.2 e.2.1 with
        | none => rw [hb2] at hg; cases hg
        | some old =>
          rw [hb2] at hg
          injection hg with h1
          rw [← h1] at hu
          have hu0 : u = u0 := by simpa using hu
          have htin : (getV st2.1 e.2.1).isSome = true := by
            rw [getV_isSome_iff, hkeys, ← getV_isSome_iff, hb2]
            rfl
          cases hat : getV st2.1 e.2.1 with
          | none => rw [hat] at htin; cases htin
          | some atv =>
            refine ⟨e.2.2, au, ERat.add au (ERat.fin e.2.2), ?_, ?_, ?_, ?_, hself_le⟩
            · rw [hu0, hv]
              exact hedge0
            · rw [hu0]
              exact List.mem_append.mpr (Or.inr (List.mem_cons_self _ _))
            · rw [hu0, getV_setV_ne _ _ (hwne u0 (Or.inr rfl))]
              exact hau0
            · rw [hv, getV_setV_self, hat]
              rfl
      · rw [getV_setV_ne _ _ hv] at hg
        obtain ⟨d, au2, av2, hd, hP2, hau2, hav2, hle2⟩ := hinv v bl u hg hu
        refine ⟨d, au2, av2, hd, hP2, ?_, ?_, hle2⟩
        · rw [getV_setV_ne _ _ (hwne u (hmemPu u hP2))]
          exact hau2
        · rw [getV_setV_ne _ _ hv]
          exact hav2
    · dsimp only
      rw [keysOf_setV, keysOf_setV]
      exact hkeys
    · intro w hw
      dsimp only
      rw [getV_setV_ne _ _ (hwne w hw)]
  · split
    · -- tie: backpred[t] gets u0 appended, AT unchanged
      rename_i hcond
      refine ⟨?_, ?_, ?_⟩
      · intro v bl u hg hu
        dsimp only at hg ⊢
        by_cases hv : v = e.2.1
        · rw [hv, getV_setV_self] at hg
          cases hb2 : getV st2.2 e.2.1 with
          | none => rw [hb2] at hg; cases hg
          | some old =>
            rw [hb2] at hg
            injection hg with h1
            rw [← h1] at hu
            simp only [hb2, Option.getD_some] at hu
            rcases List.mem_append.mp hu with h2 | h2
            · obtain ⟨d, au2, av2, hd, hP2, hau2, hav2, hle2⟩ :=
                hinv e.2.1 old u hb2 h2
              exact ⟨d, au2, av2, hv ▸ hd, hP2, hau2, hv ▸ hav2, hle2⟩
            · have hu0 : u = u0 := by simpa using h2
              cases hat : getV st2.1 e.2.1 with
              | none =>
                exfalso
                rw [hat] at hcond
                cases au with
                | ninf => exact hau_ne rfl
                | fin a => simp [ERat.add, ERat.sub, ERat.abs, ERat.le] at hcond
                | pinf => simp [ERat.add, ERat.sub, ERat.abs, ERat.le] at hcond
              | some atv =>
                refine ⟨e.2.2, au, atv, ?_, ?_, ?_, ?_, ?_⟩
                · rw [hu0, hv]
                  exact hedge0
                · rw [hu0]
                  exact List.mem_append.mpr (Or.inr (List.mem_cons_self _ _))
                · rw [hu0]
                  exact hau0
                · rw [hv]
                  exact hat
                · rw [hat] at hcond
                  simp only [Option.getD_some] at hcond
                  exact hcond
        · rw [getV_setV_ne _ _ hv] at hg
          exact hinv v bl u hg hu
      · dsimp only
        rw [keysOf_setV]
        exact hkeys
      · intro w _
        rfl
    · -- drop: state unchanged
      exact ⟨hinv, hkeys, fun w _ => rfl⟩

/-- The inner fold over a list of out-edges of the node being processed
preserves the forward-sweep invariant and the key lists. -/
theorem fwd_inner_inv (G : DiGraph) (eps : ℚ) (heps : 0 ≤ eps)
    (P : List String) (u0 : String) (au : ERat) (hau_ne : au ≠ ERat.ninf) :
    ∀ (E : List (String × String × ℚ)),
      (∀ e ∈ E, e ∈ G.edges ∧ e.1 = u0 ∧ e.2.1 ∉ P ∧ e.2.1 ≠ u0) →
      ∀ st2 : FState,
        getV st2.1 u0 = some au →
        keysOf st2.1 = keysOf st2.2 →
        FwdInv G eps (P ++ [u0]) st2 →
        FwdInv G eps (P ++ [u0]) (E.foldl (fwdEdgeStep eps u0 au) st2) ∧
        keysOf (E.foldl (fwdEdgeStep eps u0 au) st2).1
          = keysOf (E.foldl (fwdEdgeStep eps u0 au) st2).2 := by
  intro E
  induction E with
  | nil => intro _ st2 _ hk hi; exact ⟨hi, hk⟩
  | cons e E' ih =>
    intro hE st2 hau0 hkeys hinv
    simp only [List.foldl_cons]
    have he := hE e (List.mem_cons_self _ _)
    have hstep := fwdEdgeStep_inv_step G eps heps P u0 au st2 e
      he.1 he.2.1 he.2.2.1 he.2.2.2 hau0 hau_ne hkeys hinv
    refine ih (fun e2 he2 => hE e2 (List.mem_cons_of_mem _ he2)) _ ?_
      hstep.2.1 hstep.1
    rw [hstep.2.2 u0 (Or.inr rfl)]
    exact hau0

/-- Every out-edge of the node at the head of the unprocessed suffix of
a topological order has an unprocessed target distinct from the node. -/
theorem outEdges_targets_fresh (G : DiGraph) (topo : List String)
    (htopo : topo.Nodup)
    (horder : ∀ e ∈ G.edges, beforeIn topo e.1 e.2.1)
    (P s2 : List String) (u0 : String) (htopoeq : topo = P ++ u0 :: s2) :
    ∀ e ∈ G.outEdges u0, e ∈ G.edges ∧ e.1 = u0 ∧ e.2.1 ∉ P ∧ e.2.1 ≠ u0 := by
  intro e he
  have hm := List.mem_filter.mp he
  have he1 : e.1 = u0 := by simpa using hm.2
  have hb := horder e hm.1
  rw [he1] at hb
  obtain ⟨hu0mem, htmem, hidx⟩ := hb
  have hu0P : u0 ∉ P := by
    intro hP
    have hnd := htopo
    rw [htopoeq] at hnd
    exact (List.nodup_append.mp hnd).2.2 hP (List.mem_cons_self _ _)
  have hidxu0 : topo.indexOf u0 = P.length := by
    rw [htopoeq, List.indexOf_append_of_not_mem hu0P, List.indexOf_cons_self]
    omega
  refine ⟨hm.1, he1, ?_, ?_⟩
  · intro htP
    have h1 : topo.indexOf e.2.1 < P.length := by
      rw [htopoeq, List.indexOf_append_of_mem htP]
      exact List.indexOf_lt_length.mpr htP
    rw [hidxu0] at hidx
    omega
  · intro he2
    rw [he2] at hidx
    exact lt_irrefl _ hidx

/-- One node step of the forward sweep extends the invariant from the
processed prefix P to P with the processed node appended. -/
theorem fwdNodeStep_inv (G : DiGraph) (eps : ℚ) (heps : 0 ≤ eps)
    (topo : List String) (htopo : topo.Nodup)
    (horder : ∀ e ∈ G.edges, beforeIn topo e.1 e.2.1)
    (P s2 : List String) (u0 : String) (htopoeq : topo = P ++ u0 :: s2)
    (st : FState) (hkeys : keysOf st.1 = keysOf st.2) (hinv : FwdInv G eps P st) :
    FwdInv G eps (P ++ [u0]) (fwdNodeStep G eps st u0) ∧
    keysOf (fwdNodeStep G eps st u0).1 = keysOf (fwdNodeStep G eps st u0).2 := by
  have hE := outEdges_targets_fresh G topo htopo horder P s2 u0 htopoeq
  have hmono : FwdInv G eps (P ++ [u0]) st :=
    FwdInv_mono G eps st (fun x hx => List.mem_append.mpr (Or.inl hx)) hinv
  unfold fwdNodeStep
  cases hgu : getV st.1 u0 with
  | none => exact ⟨hmono, hkeys⟩
  | some au =>
    cases au with
    | ninf => exact ⟨hmono, hkeys⟩
    | fin a =>
      exact fwd_inner_inv G eps heps P u0 (ERat.fin a) (by intro h; cases h)
        (G.outEdges u0) hE st hgu hkeys hmono
    | pinf =>
      exact fwd_inner_inv G eps heps P u0 ERat.pinf (by intro h; cases h)
        (G.outEdges u0) hE st hgu hkeys hmono

/-- The forward sweep over the unprocessed suffix of the topological
order establishes the invariant for the whole order. -/
theorem fwd_sweep_inv (G : DiGraph) (eps : ℚ) (heps : 0 ≤ eps)
    (topo : List String) (htopo : topo.Nodup)
    (horder : ∀ e ∈ G.edges, beforeIn topo e.1 e.2.1) :
    ∀ (s P : List String), topo = P ++ s →
      ∀ st : FState, keysOf st.1 = keysOf st.2 → FwdInv G eps P st →
        FwdInv G eps topo (s.foldl (fwdNodeStep G eps) st) := by
  intro s
  induction s with
  | nil =>
    intro P htopoeq st _ hinv
    simp only [List.foldl_nil]
    rw [htopoeq, List.append_nil]
    exact hinv
  | cons u0 s2 ih =>
    intro P htopoeq st hkeys hinv
    simp only [List.foldl_cons]
    have hstep := fwdNodeStep_inv G eps heps topo htopo horder P s2 u0 htopoeq
      st hkeys hinv
    exact ih (P ++ [u0]) (by rw [htopoeq]; simp) _ hstep.2 hstep.1

/-- With nothing output yet, the remaining in-degree is the in-degree. -/
theorem remInDeg_nil (G : DiGraph) (v : String) :
    remInDeg G [] v = (G.inDeg v : Int) := by
  unfold remInDeg DiGraph.inDeg
  congr 1
  apply congrArg
  apply List.filter_congr
  intro e _
  simp

/-- The remaining in-degree is never negative. -/
theorem remInDeg_nonneg (G : DiGraph) (order : List String) (v : String) :
    0 ≤ remInDeg G order v := by
  unfold remInDeg
  exact Int.ofNat_nonneg _

/-- When every edge into an output node comes from an output node, the
remaining in-degree of every output node is zero. -/
theorem remInDeg_of_closed (G : DiGraph) (order : List String)
    (hclosed : ∀ e ∈ G.edges, e.2.1 ∈ order → e.1 ∈ order)
    (v : String) (hv : v ∈ order) : remInDeg G order v = 0 := by
  unfold remInDeg
  have : G.edges.filter (fun e => e.2.1 = v ∧ e.1 ∉ order) = [] := by
    rw [List.filter_eq_nil]
    intro e he
    simp only [decide_eq_true_eq, not_and, Decidable.not_not]
    intro ht
    exact hclosed e he (by rw [ht]; exact hv)
  rw [this]
  rfl

/-- Counting split of the remaining in-degree when one more node is
output: the count drops by one exactly when the graph has an edge from
the new node, provided that node was not output before and edge pairs
do not repeat. -/
theorem filter_in_out (u v : String) (order : List String) (hu : u ∉ order) :
    ∀ (L : List (String × String × ℚ)), (L.map DiGraph.pairOf).Nodup →
      (L.filter (fun e => e.2.1 = v ∧ e.1 ∉ order)).length
        = (L.filter (fun e => e.2.1 = v ∧ e.1 ∉ (order ++ [u]))).length
          + (if L.any (fun e => e.1 = u ∧ e.2.1 = v) then 1 else 0) := by
  intro L
  induction L with
  | nil => simp
  | cons e L' ih =>
    intro hnd
    have hnd2 : (L'.map DiGraph.pairOf).Nodup := (List.nodup_cons.mp (by simpa using hnd)).2
    by_cases htv : e.2.1 = v
    · by_cases hsu : e.1 = u
      · -- the (u, v) edge itself: counted on the left, not on the right
        have hnone : ∀ e2 ∈ L', ¬(e2.1 = u ∧ e2.2.1 = v) := by
          intro e2 he2 ⟨h1, h2⟩
          have : DiGraph.pairOf e2 ∈ L'.map DiGraph.pairOf :=
            List.mem_map_of_mem _ he2
          have hpe : DiGraph.pairOf e2 = DiGraph.pairOf e := by
            unfold DiGraph.pairOf
            rw [h1, h2, hsu, htv]
          rw [hpe] at this
          exact (List.nodup_cons.mp (by simpa using hnd)).1 this
        have hany : L'.any (fun e2 => e2.1 = u ∧ e2.2.1 = v) = false := by
          rw [List.any_eq_false]
          intro e2 he2
          simpa using hnone e2 he2
        have hfeq : L'.filter (fun e2 => e2.2.1 = v ∧ e2.1 ∉ (order ++ [u]))
            = L'.filter (fun e2 => e2.2.1 = v ∧ e2.1 ∉ order) := by
          apply List.filter_congr
          intro e2 he2
          simp only [List.mem_append, List.mem_singleton, decide_eq_decide]
          constructor
          · intro ⟨h1, h2⟩
            exact ⟨h1, fun hm => h2 (Or.inl hm)⟩
          · intro ⟨h1, h2⟩
            refine ⟨h1, ?_⟩
            rintro (hm | hm)
            · exact h2 hm
            · exact hnone e2 he2 ⟨hm, h1⟩
        have hLcnt : (e :: L').filter (fun e2 => e2.2.1 = v ∧ e2.1 ∉ order)
            = e :: L'.filter (fun e2 => e2.2.1 = v ∧ e2.1 ∉ order) := by
          rw [List.filter_cons_of_pos]
          simp [htv, hsu, hu]
        have hRcnt : (e :: L').filter (fun e2 => e2.2.1 = v ∧ e2.1 ∉ (order ++ [u]))
            = L'.filter (fun e2 => e2.2.1 = v ∧ e2.1 ∉ (order ++ [u])) := by
          rw [List.filter_cons_of_neg]
          simp [htv, hsu]
        rw [hLcnt, hRcnt, hfeq]
        simp only [List.any_cons, hany]
        simp [hsu, htv, List.length_cons]
      · -- an edge into v from elsewhere: counted equally on both sides
        have hpred : (fun e2 : String × String × ℚ =>
            decide (e2.2.1 = v ∧ e2.1 ∉ (order ++ [u]))) e
            = (fun e2 : String × String × ℚ =>
            decide (e2.2.1 = v ∧ e2.1 ∉ order)) e := by
          simp only [decide_eq_decide]
          constructor
          · intro ⟨h1, h2⟩
            exact ⟨h1, fun hm => h2 (by simp [hm])⟩
          · intro ⟨h1, h2⟩
            refine ⟨h1, ?_⟩
            simp only [List.mem_append, List.mem_singleton]
            rintro (hm | hm)
            · exact h2 hm
            · exact hsu hm
        have hanyhead : ((e :: L').any (fun e2 => e2.1 = u ∧ e2.2.1 = v))
            = (L'.any (fun e2 => e2.1 = u ∧ e2.2.1 = v)) := by
          simp [List.any_cons, hsu]
        rw [hanyhead]
        by_cases hin : e.1 ∉ order
        · rw [List.filter_cons_of_pos (by simp [htv, hin]),
            List.filter_cons_of_pos (by
              have := hpred
              simp only [decide_eq_true_eq, decide_eq_decide] at this
              simp only [decide_eq_true_eq]
              exact this.mpr ⟨htv, hin⟩)]
          simp only [List.length_cons]
          rw [ih hnd2]
          omega
        · rw [List.filter_cons_of_neg (by simp [hin]),
            List.filter_cons_of_neg (by
              simp only [decide_eq_true_eq]
              intro ⟨h1, h2⟩
              exact hin fun hm => h2 (by simp [hm]))]
          exact ih hnd2
    · -- an edge into another node: invisible on both sides
      rw [List.filter_cons_of_neg (by simp [htv]),
        List.filter_cons_of_neg (by simp [htv])]
      have : ((e :: L').any (fun e2 => e2.1 = u ∧ e2.2.1 = v))
          = (L'.any (fun e2 => e2.1 = u ∧ e2.2.1 = v)) := by
        simp [List.any_cons, htv]
      rw [this]
      exact ih hnd2

/-- Outputting one more node decreases the remaining in-degrees by the
edges leaving it. -/
theorem remInDeg_append (G : DiGraph) (order : List String) (u v : String)
    (hu : u ∉ order) (hnd : (G.edges.map DiGraph.pairOf).Nodup) :
    remInDeg G order v
      = remInDeg G (order ++ [u]) v + (if G.hasEdge u v then 1 else 0) := by
  unfold remInDeg DiGraph.hasEdge
  rw [filter_in_out u v order hu G.edges hnd]
  split
  · simp
  · simp

/-- Membership among the successors of u is existence of the edge. -/
theorem mem_successors_iff (G : DiGraph) (u v : String) :
    v ∈ G.successors u ↔ G.hasEdge u v = true := by
  unfold DiGraph.successors DiGraph.outEdges DiGraph.hasEdge
  rw [List.any_eq_true]
  constructor
  · intro hm
    obtain ⟨e, he, hev⟩ := List.mem_map.mp hm
    have hf := List.mem_filter.mp he
    refine ⟨e, hf.1, ?_⟩
    simp only [decide_eq_true_eq]
    exact ⟨by simpa using hf.2, hev⟩
  · rintro ⟨e, he, hp⟩
    simp only [decide_eq_true_eq] at hp
    refine List.mem_map.mpr ⟨e, List.mem_filter.mpr ⟨he, by simp [hp.1]⟩, hp.2⟩

/-- Without repeated edge pairs, the successors of a node are
distinct. -/
theorem successors_nodup (G : DiGraph) (u : String)
    (hnd : (G.edges.map DiGraph.pairOf).Nodup) : (G.successors u).Nodup := by
  have hsub : (G.outEdges u).map DiGraph.pairOf |>.Sublist (G.edges.map DiGraph.pairOf) :=
    List.Sublist.map _ (List.filter_sublist _)
  have hnd2 : ((G.outEdges u).map DiGraph.pairOf).Nodup := hnd.sublist hsub
  have heq : G.successors u = ((G.outEdges u).map DiGraph.pairOf).map Prod.snd := by
    unfold DiGraph.successors
    rw [List.map_map]
    rfl
  rw [heq]
  refine List.Nodup.map_on ?_ hnd2
  intro x hx y hy hxy
  obtain ⟨ex, hex, hpx⟩ := List.mem_map.mp hx
  obtain ⟨ey, hey, hpy⟩ := List.mem_map.mp hy
  have hx1 : x.1 = u := by
    rw [← hpx]
    simpa using (List.mem_filter.mp hex).2
  have hy1 : y.1 = u := by
    rw [← hpy]
    simpa using (List.mem_filter.mp hey).2
  cases x with
  | mk xa xb =>
    cases y with
    | mk ya yb =>
      simp only at hx1 hy1 hxy
      rw [hx1, hy1, hxy]

/-- Characterization of the successor fold of the Kahn loop: every
successor counter drops by one, and exactly those reaching zero are
appended to the queue, in successor order. -/
theorem kahn_fold_spec (G : DiGraph) :
    ∀ (S : List String) (m : List (String × Int)) (f : String → Int)
      (qs : List String),
      S.Nodup →
      keysOf m = G.nodes →
      (∀ v ∈ G.nodes, getV m v = some (f v)) →
      (∀ v ∈ S, v ∈ G.nodes) →
      keysOf (S.foldl (fun acc v =>
          let dv := (getV acc.1 v).getD 0 - 1
          let ind := setV acc.1 v dv
          if dv = 0 then (ind, acc.2 ++ [v]) else (ind, acc.2)) (m, qs)).1
        = G.nodes ∧
      (∀ v ∈ G.nodes, getV (S.foldl (fun acc v =>
          let dv := (getV acc.1 v).getD 0 - 1
          let ind := setV acc.1 v dv
          if dv = 0 then (ind, acc.2 ++ [v]) else (ind, acc.2)) (m, qs)).1 v
        = some (if v ∈ S then f v - 1 else f v)) ∧
      (S.foldl (fun acc v =>
          let dv := (getV acc.1 v).getD 0 - 1
          let ind := setV acc.1 v dv
          if dv = 0 then (ind, acc.2 ++ [v]) else (ind, acc.2)) (m, qs)).2
        = qs ++ S.filter (fun v => f v - 1 = 0) := by
  intro S
  induction S with
  | nil =>
    intro m f qs _ hkeys hbind _
    refine ⟨hkeys, ?_, by simp⟩
    intro v hv
    simp only [List.foldl_nil, List.not_mem_nil, if_neg (fun h => h)]
    simpa using hbind v hv
  | cons t S' ih =>
    intro m f qs hndS hkeys hbind hmem
    have htn : t ∈ G.nodes := hmem t (List.mem_cons_self _ _)
    have hmt : getV m t = some (f t) := hbind t htn
    have hstep1 : getV (setV m t ((getV m t).getD 0 - 1)) t = some (f t - 1) := by
      rw [getV_setV_self, hmt]
      simp
    simp only [List.foldl_cons]
    have hdv : (getV m t).getD 0 - 1 = f t - 1 := by rw [hmt]; rfl
    have hbind2 : ∀ v ∈ G.nodes,
        getV (setV m t ((getV m t).getD 0 - 1)) v
          = some (if v = t then f t - 1 else f v) := by
      intro v hv
      by_cases hvt : v = t
      · rw [hvt, if_pos rfl]
        exact hstep1
      · rw [if_neg hvt, getV_setV_ne _ _ hvt]
        exact hbind v hv
    have hkeys2 : keysOf (setV m t ((getV m t).getD 0 - 1)) = G.nodes := by
      rw [keysOf_setV]
      exact hkeys
    have hndS2 := (List.nodup_cons.mp hndS).2
    have htS : t ∉ S' := (List.nodup_cons.mp hndS).1
    have hmem2 : ∀ v ∈ S', v ∈ G.nodes := fun v hv =>
      hmem v (List.mem_cons_of_mem _ hv)
    have hmain := ih (setV m t ((getV m t).getD 0 - 1))
      (fun v => if v = t then f t - 1 else f v)
      (if (getV m t).getD 0 - 1 = 0 then qs ++ [t] else qs)
      hndS2 hkeys2 hbind2 hmem2
    dsimp only at hmain ⊢
    have hif : (if (getV m t).getD 0 - 1 = 0
          then (setV m t ((getV m t).getD 0 - 1), qs ++ [t])
          else (setV m t ((getV m t).getD 0 - 1), qs))
        = (setV m t ((getV m t).getD 0 - 1),
           if (getV m t).getD 0 - 1 = 0 then qs ++ [t] else qs) := by
      split <;> rfl
    rw [hif]
    refine ⟨hmain.1, ?_, ?_⟩
    · intro v hv
      rw [hmain.2.1 v hv]
      by_cases hvt : v = t
      · rw [hvt]
        rw [if_neg htS, if_pos rfl, if_pos (List.mem_cons_self _ _)]
      · by_cases hvS : v ∈ S'
        · rw [if_pos hvS, if_neg hvt, if_pos (List.mem_cons_of_mem _ hvS)]
        · rw [if_neg hvS, if_neg hvt,
            if_neg (by
              intro hmem3
              rcases List.mem_cons.mp hmem3 with h1 | h1
              · exact hvt h1
              · exact hvS h1)]
    · rw [hmain.2.2]
      have hfcong : S'.filter (fun v => decide ((if v = t then f t - 1 else f v) - 1 = 0))
          = S'.filter (fun v => decide (f v - 1 = 0)) := by
        apply List.filter_congr
        intro v hv
        rw [if_neg (by
          intro hvt
          exact htS (hvt ▸ hv))]
      rw [hfcong, hdv]
      by_cases hft : f t - 1 = 0
      · rw [if_pos hft, List.filter_cons_of_pos (by simpa using hft)]
        simp
      · rw [if_neg hft, List.filter_cons_of_neg (by simpa using hft)]

/-- Specification of kahnVisit: counters now hold the remaining
in-degrees after u is output, and the queue gains the successors whose
counter reached zero. -/
theorem kahnVisit_spec (G : DiGraph) (u : String) (indeg : List (String × Int))
    (qs order : List String)
    (hnd : (G.edges.map DiGraph.pairOf).Nodup)
    (hwf : ∀ e ∈ G.edges, e.1 ∈ G.nodes ∧ e.2.1 ∈ G.nodes)
    (hu : u ∉ order)
    (hkeys : keysOf indeg = G.nodes)
    (hbind : ∀ v ∈ G.nodes, getV indeg v = some (remInDeg G order v)) :
    keysOf (kahnVisit G u indeg qs).1 = G.nodes ∧
    (∀ v ∈ G.nodes, getV (kahnVisit G u indeg qs).1 v
      = some (remInDeg G (order ++ [u]) v)) ∧
    (kahnVisit G u indeg qs).2
      = qs ++ (G.successors u).filter (fun v => remInDeg G order v - 1 = 0) := by
  have hmemS : ∀ v ∈ G.successors u, v ∈ G.nodes := by
    intro v hv
    have hhe := (mem_successors_iff G u v).mp hv
    unfold DiGraph.hasEdge at hhe
    rw [List.any_eq_true] at hhe
    obtain ⟨e, he, hp⟩ := hhe
    simp only [decide_eq_true_eq] at hp
    have := (hwf e he).2
    rw [hp.2] at this
    exact this
  have hS := kahn_fold_spec G (G.successors u) indeg (remInDeg G order) qs
    (successors_nodup G u hnd) hkeys hbind hmemS
  refine ⟨hS.1, ?_, hS.2.2⟩
  intro v hv
  show getV ((G.successors u).foldl (fun acc v =>
      let dv := (getV acc.1 v).getD 0 - 1
      let ind := setV acc.1 v dv
      if dv = 0 then (ind, acc.2 ++ [v]) else (ind, acc.2)) (indeg, qs)).1 v = _
  rw [hS.2.1 v hv]
  have happ := remInDeg_append G order u v hu hnd
  by_cases hvS : v ∈ G.successors u
  · rw [if_pos hvS]
    have hhe := (mem_successors_iff G u v).mp hvS
    rw [hhe, if_pos rfl] at happ
    congr 1
    omega
  · rw [if_neg hvS]
    have hhe : G.hasEdge u v = false := by
      cases hcase : G.hasEdge u v with
      | false => rfl
      | true => exact absurd ((mem_successors_iff G u v).mpr hcase) hvS
    rw [hhe] at happ
    norm_num at happ
    rw [happ]

/-- The Kahn loop step: dequeuing the front node and visiting its
successors preserves the invariant with the node appended to the
output. -/
theorem kahn_step (G : DiGraph) (hwfG : G.WF)
    (indeg : List (String × Int)) (u : String) (qs order : List String)
    (hinv : KInv G indeg (u :: qs) order) :
    KInv G (kahnVisit G u indeg qs).1 (kahnVisit G u indeg qs).2 (order ++ [u]) := by
  obtain ⟨hnodesN, hwfE, hnd⟩ := hwfG
  obtain ⟨hkeys, hnodup, hordN, hqN, hbind, hqiff, hclosed⟩ := hinv
  have hu_node : u ∈ G.nodes := hqN u (List.mem_cons_self _ _)
  have hu_ord : u ∉ order := by
    intro hmem
    exact (List.nodup_append.mp hnodup).2.2 hmem (List.mem_cons_self _ _)
  have hrem_u : remInDeg G order u = 0 := ((hqiff u).mp (List.mem_cons_self _ _)).2.2
  have hvisit := kahnVisit_spec G u indeg qs order hnd hwfE hu_ord hkeys hbind
  have hclosed1 : ∀ e ∈ G.edges, e.2.1 ∈ order → e.1 ∈ order :=
    fun e he ht => (hclosed e he ht).1
  have hqnew : ∀ v, v ∈ (G.successors u).filter
      (fun v => remInDeg G order v - 1 = 0) →
      v ∈ G.nodes ∧ v ∉ order ∧ v ≠ u ∧ v ∉ qs ∧ remInDeg G order v = 1 ∧
        G.hasEdge u v = true := by
    intro v hv
    have hf := List.mem_filter.mp hv
    have hrem1 : remInDeg G order v = 1 := by
      have := hf.2
      simp only [decide_eq_true_eq] at this
      omega
    have hhe := (mem_successors_iff G u v).mp hf.1
    have hvN : v ∈ G.nodes := by
      unfold DiGraph.hasEdge at hhe
      rw [List.any_eq_true] at hhe
      obtain ⟨e, he, hp⟩ := hhe
      simp only [decide_eq_true_eq] at hp
      have := (hwfE e he).2
      rw [hp.2] at this
      exact this
    refine ⟨hvN, ?_, ?_, ?_, hrem1, (mem_successors_iff G u v).mp hf.1⟩
    · intro hvo
      rw [remInDeg_of_closed G order hclosed1 v hvo] at hrem1
      cases hrem1
    · intro hvu
      rw [hvu, hrem_u] at hrem1
      cases hrem1
    · intro hvqs
      have := ((hqiff v).mp (List.mem_cons_of_mem _ hvqs)).2.2
      rw [this] at hrem1
      cases hrem1
  have hsucc_nodup := successors_nodup G u hnd
  have hrem_append : ∀ v, remInDeg G order v
      = remInDeg G (order ++ [u]) v + (if G.hasEdge u v then 1 else 0) :=
    fun v => remInDeg_append G order u v hu_ord hnd
  have hu_qs : u ∉ qs := by
    have := (List.nodup_append.mp hnodup).2.1
    exact (List.nodup_cons.mp this).1
  have hord_nodup : order.Nodup := (List.nodup_append.mp hnodup).1
  have hqs_nodup : qs.Nodup := (List.nodup_cons.mp (List.nodup_append.mp hnodup).2.1).2
  have hdisj : ∀ a ∈ order, a ∉ u :: qs := by
    intro a ha hmem
    exact (List.nodup_append.mp hnodup).2.2 ha hmem
  refine ⟨hvisit.1, ?_, ?_, ?_, hvisit.2.1, ?_, ?_⟩
  · -- Nodup (order ++ [u] ++ (qs ++ qnew))
    rw [hvisit.2.2]
    rw [List.nodup_append]
    refine ⟨?_, ?_, ?_⟩
    · rw [List.nodup_append]
      refine ⟨hord_nodup, by simp, ?_⟩
      intro a ha hmem
      have : a = u := by simpa using hmem
      exact hdisj a ha (this ▸ List.mem_cons_self _ _)
    · rw [List.nodup_append]
      refine ⟨hqs_nodup, List.Nodup.filter _ hsucc_nodup, ?_⟩
      intro a ha hmem
      exact (hqnew a hmem).2.2.2.1 ha
    · intro a ha hmem
      rcases List.mem_append.mp ha with h1 | h1
      · rcases List.mem_append.mp hmem with h2 | h2
        · exact hdisj a h1 (List.mem_cons_of_mem _ h2)
        · exact (hqnew a h2).2.1 h1
      · have hau : a = u := by simpa using h1
        rcases List.mem_append.mp hmem with h2 | h2
        · exact hu_qs (hau ▸ h2)
        · exact (hqnew a h2).2.2.1 hau
  · intro x hx
    rcases List.mem_append.mp hx with h1 | h1
    · exact hordN x h1
    · have : x = u := by simpa using h1
      exact this ▸ hu_node
  · intro x hx
    rw [hvisit.2.2] at hx
    rcases List.mem_append.mp hx with h1 | h1
    · exact hqN x (List.mem_cons_of_mem _ h1)
    · exact (hqnew x h1).1
  · -- queue characterization
    intro v
    rw [hvisit.2.2]
    constructor
    · intro hv
      rcases List.mem_append.mp hv with h1 | h1
      · have hold := (hqiff v).mp (List.mem_cons_of_mem _ h1)
        have hvu : v ≠ u := fun he => hu_qs (he ▸ h1)
        refine ⟨hold.1, ?_, ?_⟩
        · intro hmem
          rcases List.mem_append.mp hmem with h2 | h2
          · exact hold.2.1 h2
          · exact hvu (by simpa using h2)
        · have := hrem_append v
          rw [hold.2.2] at this
          have hnn := remInDeg_nonneg G (order ++ [u]) v
          by_cases hhe : G.hasEdge u v
          · rw [if_pos hhe] at this
            omega
          · rw [if_neg hhe] at this
            omega
      · obtain ⟨hvN, hvo, hvu, _, hrem1, hhe⟩ := hqnew v h1
        refine ⟨hvN, ?_, ?_⟩
        · intro hmem
          rcases List.mem_append.mp hmem with h2 | h2
          · exact hvo h2
          · exact hvu (by simpa using h2)
        · have := hrem_append v
          rw [hrem1, if_pos hhe] at this
          omega
    · rintro ⟨hvN, hvo, hrem0⟩
      have hvord : v ∉ order := fun hm => hvo (List.mem_append.mpr (Or.inl hm))
      have hvu : v ≠ u := fun he =>
        hvo (List.mem_append.mpr (Or.inr (by simp [he])))
      by_cases hhe : G.hasEdge u v
      · have := hrem_append v
        rw [if_pos hhe, hrem0] at this
        refine List.mem_append.mpr (Or.inr ?_)
        refine List.mem_filter.mpr ⟨(mem_successors_iff G u v).mpr hhe, ?_⟩
        simp only [decide_eq_true_eq]
        omega
      · have := hrem_append v
        rw [if_neg hhe, hrem0] at this
        have hvq := (hqiff v).mpr ⟨hvN, hvord, by omega⟩
        rcases List.mem_cons.mp hvq with h1 | h1
        · exact absurd h1 hvu
        · exact List.mem_append.mpr (Or.inl h1)
  · -- ordering property
    intro e he ht
    rcases List.mem_append.mp ht with h1 | h1
    · have hold := hclosed e he h1
      have hsrc : e.1 ∈ order ++ [u] := List.mem_append.mpr (Or.inl hold.1)
      refine ⟨hsrc, ?_, ?_, ?_⟩
      · exact hsrc
      · exact List.mem_append.mpr (Or.inl h1)
      · rw [List.indexOf_append_of_mem hold.1, List.indexOf_append_of_mem h1]
        exact hold.2.2.2
    · have htu : e.2.1 = u := by simpa using h1
      have hsrc_ord : e.1 ∈ order := by
        have h0 : remInDeg G order u = 0 := hrem_u
        unfold remInDeg at h0
        have hlen : (G.edges.filter
            (fun e2 => e2.2.1 = u ∧ e2.1 ∉ order)).length = 0 := by omega
        rw [List.length_eq_zero] at hlen
        by_contra hno
        have hin : e ∈ G.edges.filter (fun e2 => e2.2.1 = u ∧ e2.1 ∉ order) :=
          List.mem_filter.mpr ⟨he, by simp [htu, hno]⟩
        rw [hlen] at hin
        cases hin
      refine ⟨List.mem_append.mpr (Or.inl hsrc_ord), ?_, ?_, ?_⟩
      · exact List.mem_append.mpr (Or.inl hsrc_ord)
      · exact List.mem_append.mpr (Or.inr (by simp [htu]))
      · rw [List.indexOf_append_of_mem hsrc_ord, htu,
          List.indexOf_append_of_not_mem hu_ord, List.indexOf_cons_self]
        have := List.indexOf_lt_length.mpr hsrc_ord
        omega

/-- The Kahn loop, run with fuel exceeding the number of nodes still to
be output, terminates with an empty queue and the invariant intact. -/
theorem kahnLoop_final (G : DiGraph) (hwfG : G.WF) :
    ∀ (fuel : Nat) (indeg : List (String × Int)) (q order : List String),
      KInv G indeg q order →
      G.nodes.length + 1 ≤ fuel + order.length →
      ∃ indegF, KInv G indegF [] (kahnLoop G fuel indeg q order) := by
  intro fuel
  induction fuel with
  | zero =>
    intro indeg q order hinv hcount
    exfalso
    have hnodup : order.Nodup := (List.nodup_append.mp hinv.2.1).1
    have hsub : order ⊆ G.nodes := fun x hx => hinv.2.2.1 x hx
    have hlen : order.length ≤ G.nodes.length :=
      (List.subperm_of_subset hnodup hsub).length_le
    omega
  | succ n ih =>
    intro indeg q order hinv hcount
    cases q with
    | nil => exact ⟨indeg, hinv⟩
    | cons u qs =>
      have hstep := kahn_step G hwfG indeg u qs order hinv
      have hrec := ih (kahnVisit G u indeg qs).1 (kahnVisit G u indeg qs).2
        (order ++ [u]) hstep
        (by rw [List.length_append, List.length_singleton]; omega)
      exact hrec

/-- Claim C2: Kahn_topological_sort fails with the cycle error exactly
when the graph contains a cycle; on success the returned order is a
permutation of the node list (every node exactly once) and every edge
goes strictly forward in it. -/
theorem Khan_topological_sort_correct (G : DiGraph) (hwf : G.WF) :
    (Khan_topological_sort G = Except.error () ↔ G.HasCycle) ∧
    (∀ order, Khan_topological_sort G = Except.ok order →
      order.Perm G.nodes ∧ ∀ e ∈ G.edges, beforeIn order e.1 e.2.1) := by
  have hinit : KInv G (G.nodes.map (fun u => (u, (G.inDeg u : Int))))
      (G.nodes.filter (fun u => G.inDeg u = 0)) [] := by
    refine ⟨keysOf_map_mk _ _, ?_, ?_, ?_, ?_, ?_, ?_⟩
    · simpa using hwf.1.filter _
    · intro x hx; cases hx
    · intro x hx; exact (List.mem_filter.mp hx).1
    · intro v hv
      rw [getV_map_self _ hv, remInDeg_nil]
    · intro v
      rw [remInDeg_nil]
      constructor
      · intro hv
        have hf := List.mem_filter.mp hv
        refine ⟨hf.1, fun h => absurd h (List.not_mem_nil v), ?_⟩
        have h2 := hf.2
        simp only [decide_eq_true_eq] at h2
        omega
      · rintro ⟨hN, _, h0⟩
        refine List.mem_filter.mpr ⟨hN, ?_⟩
        simp only [decide_eq_true_eq]
        omega
    · intro e _ ht
      cases ht
  obtain ⟨indegF, hfin⟩ := kahnLoop_final G hwf (G.nodes.length + 1)
    (G.nodes.map (fun u => (u, (G.inDeg u : Int))))
    (G.nodes.filter (fun u => G.inDeg u = 0)) [] hinit (by omega)
  have hres_nodup : (kahnLoop G (G.nodes.length + 1)
      (G.nodes.map (fun u => (u, (G.inDeg u : Int))))
      (G.nodes.filter (fun u => G.inDeg u = 0)) []).Nodup := by
    have := hfin.2.1
    simpa using this
  have hres_sub : ∀ x ∈ kahnLoop G (G.nodes.length + 1)
      (G.nodes.map (fun u => (u, (G.inDeg u : Int))))
      (G.nodes.filter (fun u => G.inDeg u = 0)) [], x ∈ G.nodes := hfin.2.2.1
  have hstuck : ∀ v ∈ G.nodes, v ∉ kahnLoop G (G.nodes.length + 1)
      (G.nodes.map (fun u => (u, (G.inDeg u : Int))))
      (G.nodes.filter (fun u => G.inDeg u = 0)) [] →
      remInDeg G (kahnLoop G (G.nodes.length + 1)
        (G.nodes.map (fun u => (u, (G.inDeg u : Int))))
        (G.nodes.filter (fun u => G.inDeg u = 0)) []) v ≠ 0 := by
    intro v hN hnr h0
    exact absurd ((hfin.2.2.2.2.2.1 v).mpr ⟨hN, hnr, h0⟩) (List.not_mem_nil v)
  have hordered := hfin.2.2.2.2.2.2
  by_cases hlen : (kahnLoop G (G.nodes.length + 1)
      (G.nodes.map (fun u => (u, (G.inDeg u : Int))))
      (G.nodes.filter (fun u => G.inDeg u = 0)) []).length = G.nodes.length
  · -- complete output: a topological order exists, so no cycle
    have hperm : (kahnLoop G (G.nodes.length + 1)
        (G.nodes.map (fun u => (u, (G.inDeg u : Int))))
        (G.nodes.filter (fun u => G.inDeg u = 0)) []).Perm G.nodes :=
      (List.subperm_of_subset hres_nodup hres_sub).perm_of_length_le (by omega)
    have hedge_before : ∀ e ∈ G.edges, beforeIn (kahnLoop G (G.nodes.length + 1)
        (G.nodes.map (fun u => (u, (G.inDeg u : Int))))
        (G.nodes.filter (fun u => G.inDeg u = 0)) []) e.1 e.2.1 := by
      intro e he
      have htN : e.2.1 ∈ G.nodes := (hwf.2.1 e he).2
      have htres := hperm.mem_iff.mpr htN
      exact (hordered e he htres).2
    have hnocycle : ¬ G.HasCycle := by
      rintro ⟨x, hx⟩
      have hmono : ∀ a b, Relation.TransGen G.edgeRel a b →
          List.indexOf a (kahnLoop G (G.nodes.length + 1)
            (G.nodes.map (fun u => (u, (G.inDeg u : Int))))
            (G.nodes.filter (fun u => G.inDeg u = 0)) [])
          < List.indexOf b (kahnLoop G (G.nodes.length + 1)
            (G.nodes.map (fun u => (u, (G.inDeg u : Int))))
            (G.nodes.filter (fun u => G.inDeg u = 0)) []) := by
        intro a b h
        induction h with
        | single hr =>
          obtain ⟨d, hd⟩ := hr
          exact (hedge_before (a, _, d) hd).2.2
        | tail hstep hr ih =>
          obtain ⟨d, hd⟩ := hr
          exact lt_trans ih (hedge_before (_, _, d) hd).2.2
      exact lt_irrefl _ (hmono x x hx)
    constructor
    · constructor
      · intro herr
        exfalso
        unfold Khan_topological_sort at herr
        rw [if_neg (by omega)] at herr
        cases herr
      · intro hcyc
        exact absurd hcyc hnocycle
    · intro order hok
      unfold Khan_topological_sort at hok
      rw [if_neg (by omega)] at hok
      injection hok with hok
      rw [← hok]
      exact ⟨hperm, fun e he => hedge_before e he⟩
  · -- incomplete output: a cycle exists
    have herr : Khan_topological_sort G = Except.error () := by
      unfold Khan_topological_sort
      rw [if_pos (by omega)]
    have hcycle : G.HasCycle := by
      classical
      -- some node was never output
      have hexv : ∃ v ∈ G.nodes, v ∉ kahnLoop G (G.nodes.length + 1)
          (G.nodes.map (fun u => (u, (G.inDeg u : Int))))
          (G.nodes.filter (fun u => G.inDeg u = 0)) [] := by
        by_contra hno
        push_neg at hno
        have hsub2 : G.nodes ⊆ kahnLoop G (G.nodes.length + 1)
            (G.nodes.map (fun u => (u, (G.inDeg u : Int))))
            (G.nodes.filter (fun u => G.inDeg u = 0)) [] := fun x hx => hno x hx
        have h1 : G.nodes.length ≤ (kahnLoop G (G.nodes.length + 1)
            (G.nodes.map (fun u => (u, (G.inDeg u : Int))))
            (G.nodes.filter (fun u => G.inDeg u = 0)) []).length :=
          (List.subperm_of_subset hwf.1 hsub2).length_le
        have h2 : (kahnLoop G (G.nodes.length + 1)
            (G.nodes.map (fun u => (u, (G.inDeg u : Int))))
            (G.nodes.filter (fun u => G.inDeg u = 0)) []).length
            ≤ G.nodes.length :=
          (List.subperm_of_subset hres_nodup hres_sub).length_le
        omega
      have hpred : ∀ v, v ∈ G.nodes → v ∉ kahnLoop G (G.nodes.length + 1)
          (G.nodes.map (fun u => (u, (G.inDeg u : Int))))
          (G.nodes.filter (fun u => G.inDeg u = 0)) [] →
          ∃ w, G.edgeRel w v ∧ w ∈ G.nodes ∧ w ∉ kahnLoop G (G.nodes.length + 1)
            (G.nodes.map (fun u => (u, (G.inDeg u : Int))))
            (G.nodes.filter (fun u => G.inDeg u = 0)) [] := by
        intro v hN hnr
        have hne := hstuck v hN hnr
        have hpos : 0 < remInDeg G (kahnLoop G (G.nodes.length + 1)
            (G.nodes.map (fun u => (u, (G.inDeg u : Int))))
            (G.nodes.filter (fun u => G.inDeg u = 0)) []) v := by
          have := remInDeg_nonneg G (kahnLoop G (G.nodes.length + 1)
            (G.nodes.map (fun u => (u, (G.inDeg u : Int))))
            (G.nodes.filter (fun u => G.inDeg u = 0)) []) v
          omega
        unfold remInDeg at hpos
        have hlenpos : 0 < (G.edges.filter (fun e => e.2.1 = v ∧ e.1 ∉
            kahnLoop G (G.nodes.length + 1)
              (G.nodes.map (fun u => (u, (G.inDeg u : Int))))
              (G.nodes.filter (fun u => G.inDeg u = 0)) [])).length := by
          omega
        obtain ⟨e, hee⟩ := List.exists_mem_of_length_pos hlenpos
        have hef := List.mem_filter.mp hee
        have hprops := hef.2
        simp only [decide_eq_true_eq] at hprops
        refine ⟨e.1, ⟨e.2.2, ?_⟩, (hwf.2.1 e hef.1).1, hprops.2⟩
        have : (e.1, v, e.2.2) = e := by
          rw [← hprops.1]
        rw [this]
        exact hef.1
      obtain ⟨v0, hv0N, hv0r⟩ := hexv
      have hchoice : ∃ g : String → String, ∀ v, v ∈ G.nodes →
          v ∉ kahnLoop G (G.nodes.length + 1)
            (G.nodes.map (fun u => (u, (G.inDeg u : Int))))
            (G.nodes.filter (fun u => G.inDeg u = 0)) [] →
          (G.edgeRel (g v) v ∧ g v ∈ G.nodes ∧ g v ∉ kahnLoop G (G.nodes.length + 1)
            (G.nodes.map (fun u => (u, (G.inDeg u : Int))))
            (G.nodes.filter (fun u => G.inDeg u = 0)) []) := by
        refine ⟨fun v => if h : ∃ w, G.edgeRel w v ∧ w ∈ G.nodes ∧
            w ∉ kahnLoop G (G.nodes.length + 1)
              (G.nodes.map (fun u => (u, (G.inDeg u : Int))))
              (G.nodes.filter (fun u => G.inDeg u = 0)) []
            then h.choose else v, ?_⟩
        intro v hN hnr
        have hex := hpred v hN hnr
        dsimp only
        rw [dif_pos hex]
        exact hex.choose_spec
      obtain ⟨g, hg⟩ := hchoice
      have hiter : ∀ (x : String), x ∈ G.nodes →
          x ∉ kahnLoop G (G.nodes.length + 1)
            (G.nodes.map (fun u => (u, (G.inDeg u : Int))))
            (G.nodes.filter (fun u => G.inDeg u = 0)) [] →
          ∀ k, g^[k] x ∈ G.nodes ∧ g^[k] x ∉ kahnLoop G (G.nodes.length + 1)
            (G.nodes.map (fun u => (u, (G.inDeg u : Int))))
            (G.nodes.filter (fun u => G.inDeg u = 0)) [] := by
        intro x hxN hxr k
        induction k with
        | zero => exact ⟨hxN, hxr⟩
        | succ n ih =>
          rw [Function.iterate_succ_apply']
          exact ⟨(hg _ ih.1 ih.2).2.1, (hg _ ih.1 ih.2).2.2⟩
      have htr : ∀ (x : String), x ∈ G.nodes →
          x ∉ kahnLoop G (G.nodes.length + 1)
            (G.nodes.map (fun u => (u, (G.inDeg u : Int))))
            (G.nodes.filter (fun u => G.inDeg u = 0)) [] →
          ∀ k, 1 ≤ k → Relation.TransGen G.edgeRel (g^[k] x) x := by
        intro x hxN hxr k
        induction k with
        | zero => intro h; omega
        | succ n ih =>
          intro _
          by_cases hn : n = 0
          · subst hn
            rw [Function.iterate_one]
            exact Relation.TransGen.single (hg x hxN hxr).1
          · have hmemn := hiter x hxN hxr n
            rw [Function.iterate_succ_apply']
            exact Relation.TransGen.head (hg _ hmemn.1 hmemn.2).1 (ih (by omega))
      have hmaps : ∀ k ∈ Finset.range (G.nodes.length + 1),
          g^[k] v0 ∈ (G.nodes.filter (fun v => v ∉ kahnLoop G (G.nodes.length + 1)
            (G.nodes.map (fun u => (u, (G.inDeg u : Int))))
            (G.nodes.filter (fun u => G.inDeg u = 0)) [])).toFinset := by
        intro k _
        rw [List.mem_toFinset, List.mem_filter]
        have := hiter v0 hv0N hv0r k
        exact ⟨this.1, by simpa using this.2⟩
      have hcard : ((G.nodes.filter (fun v => v ∉ kahnLoop G (G.nodes.length + 1)
          (G.nodes.map (fun u => (u, (G.inDeg u : Int))))
          (G.nodes.filter (fun u => G.inDeg u = 0)) [])).toFinset).card
          < (Finset.range (G.nodes.length + 1)).card := by
        rw [Finset.card_range]
        have h1 := List.toFinset_card_le (G.nodes.filter
          (fun v => v ∉ kahnLoop G (G.nodes.length + 1)
            (G.nodes.map (fun u => (u, (G.inDeg u : Int))))
            (G.nodes.filter (fun u => G.inDeg u = 0)) []))
        have h2 := List.length_filter_le (fun v => decide (v ∉ kahnLoop G
          (G.nodes.length + 1)
          (G.nodes.map (fun u => (u, (G.inDeg u : Int))))
          (G.nodes.filter (fun u => G.inDeg u = 0)) [])) G.nodes
        omega
      obtain ⟨i, _, j, _, hij, heq⟩ :=
        Finset.exists_ne_map_eq_of_card_lt_of_maps_to hcard hmaps
      rcases Nat.lt_or_ge i j with hlt | hge
      · have hx := hiter v0 hv0N hv0r i
        have hkj : g^[j] v0 = g^[j - i] (g^[i] v0) := by
          rw [← Function.iterate_add_apply]
          congr 1
          omega
        refine ⟨g^[i] v0, ?_⟩
        have := htr (g^[i] v0) hx.1 hx.2 (j - i) (by omega)
        rw [← hkj, ← heq] at this
        exact this
      · have hlt2 : j < i := by omega
        have hx := hiter v0 hv0N hv0r j
        have hki : g^[i] v0 = g^[i - j] (g^[j] v0) := by
          rw [← Function.iterate_add_apply]
          congr 1
          omega
        refine ⟨g^[j] v0, ?_⟩
        have := htr (g^[j] v0) hx.1 hx.2 (i - j) (by omega)
        rw [← hki, heq] at this
        exact this
    constructor
    · constructor
      · intro _
        exact hcycle
      · intro _
        exact herr
    · intro order hok
      rw [herr] at hok
      cases hok

/-- Witness for C2: the theorem applied to a concrete well-formed graph. -/
theorem Khan_topological_sort_correct_witness :
    slackWG.WF ∧
    ((Khan_topological_sort slackWG = Except.error () ↔ slackWG.HasCycle) ∧
     (∀ order, Khan_topological_sort slackWG = Except.ok order →
       order.Perm slackWG.nodes ∧
       ∀ e ∈ slackWG.edges, beforeIn order e.1 e.2.1)) :=
  ⟨by decide, Khan_topological_sort_correct slackWG (by decide)⟩

theorem wordChar_val (c : Char) (h : isWordChar c = true) :
    (97 <= c.toNat ∧ c.toNat <= 122) ∨ (65 <= c.toNat ∧ c.toNat <= 90) ∨
    (48 <= c.toNat ∧ c.toNat <= 57) ∨ c.toNat = 95 := by
  simp only [isWordChar, decide_eq_true_eq] at h
  rcases h with ⟨h1, h2⟩ | ⟨h1, h2⟩ | ⟨h1, h2⟩ | h1
  · exact Or.inl ⟨h1, h2⟩
  · exact Or.inr (Or.inl ⟨h1, h2⟩)
  · exact Or.inr (Or.inr (Or.inl ⟨h1, h2⟩))
  · exact Or.inr (Or.inr (Or.inr (by rw [h1]; rfl)))

theorem alphaU_wordChar (c : Char) (h : isAlphaU c = true) : isWordChar c = true := by
  simp only [isAlphaU, decide_eq_true_eq] at h
  simp only [isWordChar, decide_eq_true_eq]
  tauto

theorem wordChar_not_ws (c : Char) (h : isWordChar c = true) : isWs c = false := by
  have hv := wordChar_val c h
  simp only [isWs, decide_eq_false_iff_not]
  rintro (he | he | he | he | he | he) <;> rw [he] at hv <;> revert hv <;> decide

theorem wordChar_ne_semi (c : Char) (h : isWordChar c = true) : c ≠ ';' := by
  intro he
  have hv := wordChar_val c h
  rw [he] at hv
  revert hv
  decide

theorem wordChar_ne_bslash (c : Char) (h : isWordChar c = true) : c ≠ '\\' := by
  intro he
  have hv := wordChar_val c h
  rw [he] at hv
  revert hv
  decide

theorem takeWhile_all {p : Char → Bool} {l : List Char}
    (h : ∀ c ∈ l, p c = true) : l.takeWhile p = l := by
  induction l with
  | nil => rfl
  | cons a t ih =>
    rw [List.takeWhile_cons, if_pos (h a (List.mem_cons_self a t))]
    rw [ih (fun c hc => h c (List.mem_cons_of_mem a hc))]

theorem takeWhile_all_append {p : Char → Bool} {l1 : List Char} {x : Char}
    {l2 : List Char} (h1 : ∀ c ∈ l1, p c = true) (hx : p x = false) :
    ((l1 ++ x :: l2).takeWhile p) = l1 := by
  induction l1 with
  | nil => simp [List.takeWhile_cons, hx]
  | cons a t ih =>
    rw [List.cons_append, List.takeWhile_cons,
      if_pos (h1 a (List.mem_cons_self a t)),
      ih (fun c hc => h1 c (List.mem_cons_of_mem a hc))]

theorem dropWhile_all_append {p : Char → Bool} {l1 l2 : List Char}
    (h1 : ∀ c ∈ l1, p c = true) :
    ((l1 ++ l2).dropWhile p) = l2.dropWhile p := by
  induction l1 with
  | nil => rfl
  | cons a t ih =>
    rw [List.cons_append, List.dropWhile_cons,
      if_pos (h1 a (List.mem_cons_self a t)),
      ih (fun c hc => h1 c (List.mem_cons_of_mem a hc))]

theorem findIdx_append_aux {p : Char → Bool} {l1 : List Char} {x : Char}
    {l2 : List Char} (h1 : ∀ c ∈ l1, p c = false) (hx : p x = true) :
    ∀ i, List.findIdx? p (l1 ++ x :: l2) i = some (i + l1.length) := by
  induction l1 with
  | nil =>
    intro i
    simp [List.findIdx?, hx]
  | cons a t ih =>
    intro i
    rw [List.cons_append, List.findIdx?]
    rw [if_neg (by rw [h1 a (List.mem_cons_self a t)]; simp)]
    rw [ih (fun c hc => h1 c (List.mem_cons_of_mem a hc)) (i + 1)]
    congr 1
    simp
    omega

theorem findIdx_append_boundary {p : Char → Bool} (l1 : List Char) (x : Char)
    (l2 : List Char) (h1 : ∀ c ∈ l1, p c = false) (hx : p x = true) :
    ((l1 ++ x :: l2).findIdx? p) = some l1.length := by
  have := @findIdx_append_aux p l1 x l2 h1 hx 0
  simpa using this

theorem matchIdentTok_ident_space (qc : Char) (qrest rest3 : List Char)
    (hqc : isAlphaU qc = true) (hqr : ∀ c ∈ qrest, isWordChar c = true) :
    matchIdentTok (qc :: qrest ++ ' ' :: rest3) = some (qc :: qrest) := by
  rw [matchIdentTok.eq_def]
  split
  next heq => exact absurd heq (by simp)
  next c rest heq =>
    injection heq with h1 h2
    subst h1
    subst h2
    rw [if_pos hqc]
    dsimp only
    simp only [List.append_eq]
    rw [takeWhile_all_append hqr (by decide)]
    rw [List.drop_left]
    split
    next heq2 => exact absurd heq2 (by simp)
    next => simp

theorem matchIdentTok_ident_all (dc : Char) (drest : List Char)
    (hdc : isAlphaU dc = true) (hdr : ∀ c ∈ drest, isWordChar c = true) :
    matchIdentTok (dc :: drest) = some (dc :: drest) := by
  rw [matchIdentTok.eq_def]
  split
  next heq => exact absurd heq (by simp)
  next c rest heq =>
    injection heq with h1 h2
    subst h1
    subst h2
    rw [if_pos hdc]
    dsimp only
    rw [takeWhile_all hdr, List.drop_length]
    split
    next heq2 => exact absurd heq2 (by simp)
    next => simp

theorem matchLazyRHS_space_ident (dc : Char) (drest : List Char)
    (hdc : isAlphaU dc = true) (hdr : ∀ c ∈ drest, isWordChar c = true) :
    matchLazyRHS (' ' :: (dc :: (drest ++ [';']))) = some (dc :: drest) := by
  have hword : ∀ c ∈ dc :: drest, isWordChar c = true := by
    intro c hc
    rcases List.mem_cons.mp hc with h | h
    · rw [h]; exact alphaU_wordChar dc hdc
    · exact hdr c h
  have hta : (' ' :: (dc :: (drest ++ [';']))).takeWhile isWs = [' '] := by
    rw [List.takeWhile_cons, if_pos (by decide), List.takeWhile_cons,
      if_neg (by rw [wordChar_not_ws dc (hword dc (List.mem_cons_self dc drest))]; simp)]
  have hshape : dc :: (drest ++ [';']) = (dc :: drest) ++ ';' :: [] := by simp
  have hfi : (dc :: (drest ++ [';'])).findIdx? (fun c => c = ';') =
      some (dc :: drest).length := by
    rw [hshape]
    exact findIdx_append_boundary (dc :: drest) ';' []
      (by
        intro c hc
        simp only [decide_eq_false_iff_not]
        exact wordChar_ne_semi c (hword c hc))
      (by decide)
  unfold matchLazyRHS
  rw [hta]
  dsimp only [List.length_cons, List.length_nil]
  rw [List.drop_succ_cons, List.drop_zero, hfi]
  dsimp only
  rw [if_pos (by simp)]
  rw [hshape, List.take_left]

theorem matchProcAssign_nba (w q d : List Char)
    (hw : ∀ c ∈ w, isWs c = true)
    (hq : isPlainIdent q = true) (hd : isPlainIdent d = true) :
    matchProcAssign (nbaLine w q d) = some (q, true, d) := by
  cases q with
  | nil => exact absurd hq (by decide)
  | cons qc qrest =>
  cases d with
  | nil => exact absurd hd (by decide)
  | cons dc drest =>
  simp only [isPlainIdent, Bool.and_eq_true, List.all_eq_true] at hq hd
  obtain ⟨hqc, hqr⟩ := hq
  obtain ⟨hdc, hdr⟩ := hd
  have hl1 : (nbaLine w (qc :: qrest) (dc :: drest)).dropWhile isWs =
      qc :: (qrest ++ ' ' :: '<' :: '=' :: ' ' :: ((dc :: drest) ++ [';'])) := by
    unfold nbaLine
    rw [List.append_assoc, dropWhile_all_append hw, List.cons_append,
      List.dropWhile_cons,
      if_neg (by rw [wordChar_not_ws qc (alphaU_wordChar qc hqc)]; simp)]
  unfold matchProcAssign
  rw [hl1]
  dsimp only
  rw [← List.cons_append]
  rw [matchIdentTok_ident_space qc qrest _ hqc (fun c hc => hqr c hc)]
  dsimp only
  rw [List.drop_left]
  rw [List.dropWhile_cons, if_pos (by decide), List.dropWhile_cons,
    if_neg (by decide)]
  split
  next r3 heq =>
    injection heq with e1 heq
    injection heq with e2 heq
    subst heq
    rw [List.cons_append]
    rw [matchLazyRHS_space_ident dc drest hdc (fun c hc => hdr c hc)]
    rfl
  next r3 heq => exact absurd heq (by simp)
  next hne1 hne2 => exact absurd rfl (hne1 _)

theorem findSignalsAux_nil (n : Nat) : findSignalsAux n [] = [] := by
  cases n <;> rfl

theorem findSignals_plain (dc : Char) (drest : List Char)
    (hdc : isAlphaU dc = true) (hdr : ∀ c ∈ drest, isWordChar c = true) :
    findSignals (dc :: drest) = [dc :: drest] := by
  unfold findSignals
  rw [List.length_cons]
  rw [findSignalsAux]
  rw [if_neg (wordChar_ne_bslash dc (alphaU_wordChar dc hdc))]
  rw [matchIdentTok_ident_all dc drest hdc hdr]
  dsimp only
  rw [List.drop_length, findSignalsAux_nil]

theorem dropWhile_none {p : Char → Bool} {l : List Char}
    (h : ∀ c ∈ l, p c = false) : l.dropWhile p = l := by
  cases l with
  | nil => rfl
  | cons a t =>
    rw [List.dropWhile_cons, if_neg (by rw [h a (List.mem_cons_self a t)]; simp)]

theorem trimWs_of_no_ws {l : List Char} (h : ∀ c ∈ l, isWs c = false) :
    trimWs l = l := by
  unfold trimWs
  rw [dropWhile_none h]
  rw [dropWhile_none (fun c hc => h c (List.mem_reverse.mp hc))]
  exact List.reverse_reverse l

theorem mem_addOnce (l : List String) (x : String) : x ∈ addOnce l x := by
  unfold addOnce
  split
  next h => exact h
  next => exact List.mem_append_right l (List.mem_singleton.mpr rfl)

theorem addNode_edges (G : DiGraph) (n : String) :
    (G.addNode n).edges = G.edges := by
  unfold DiGraph.addNode
  split <;> rfl

/-- Claim C7 (amended): inside a clocked always block, a non-blocking
assignment line `q <= d;` whose stripped text does not begin with
`always` or `end` adds the target q to the Q-net set and the driving
identifier d to the D-net set, and adds no edge to the graph; and a
line whose stripped text begins with `always` and contains `posedge`
enters a clocked block. -/
theorem clocked_block_q_d_nets (st : PState) (w q d : List Char)
    (hw : ∀ c ∈ w, isWs c = true)
    (hq : isPlainIdent q = true) (hd : isPlainIdent d = true)
    (hseq : st.in_seq = true)
    (hnotA : startsWithL (trimWs (nbaLine w q d))
      ['a', 'l', 'w', 'a', 'y', 's'] = false)
    (hnotE : startsWithL (trimWs (nbaLine w q d)) ['e', 'n', 'd'] = false) :
    String.mk q ∈ (lineStep st (nbaLine w q d)).ff_q_nets ∧
    String.mk d ∈ (lineStep st (nbaLine w q d)).d_nets ∧
    (lineStep st (nbaLine w q d)).G.edges = st.G.edges ∧
    ∀ (st2 : PState) (line2 : List Char),
      startsWithL (trimWs line2) ['a', 'l', 'w', 'a', 'y', 's'] = true →
      containsL (trimWs line2) ['p', 'o', 's', 'e', 'd', 'g', 'e'] = true →
      (lineStep st2 line2).in_seq = true := by
  cases q with
  | nil => exact absurd hq (by decide)
  | cons qc qrest =>
  cases d with
  | nil => exact absurd hd (by decide)
  | cons dc drest =>
  have hqP := hq
  have hdP := hd
  simp only [isPlainIdent, Bool.and_eq_true, List.all_eq_true] at hq hd
  obtain ⟨hqc, hqr⟩ := hq
  obtain ⟨hdc, hdr⟩ := hd
  have hqw : ∀ c ∈ qc :: qrest, isWordChar c = true := by
    intro c hc
    rcases List.mem_cons.mp hc with h | h
    · rw [h]; exact alphaU_wordChar qc hqc
    · exact hqr c h
  have hdw : ∀ c ∈ dc :: drest, isWordChar c = true := by
    intro c hc
    rcases List.mem_cons.mp hc with h | h
    · rw [h]; exact alphaU_wordChar dc hdc
    · exact hdr c h
  have hm := matchProcAssign_nba w (qc :: qrest) (dc :: drest) hw hqP hdP
  have hfs := findSignals_plain dc drest hdc hdr
  have htq : trimWs (qc :: qrest) = qc :: qrest :=
    trimWs_of_no_ws (fun c hc => wordChar_not_ws c (hqw c hc))
  have htd : trimWs (dc :: drest) = dc :: drest :=
    trimWs_of_no_ws (fun c hc => wordChar_not_ws c (hdw c hc))
  have hstep : lineStep st (nbaLine w (qc :: qrest) (dc :: drest)) =
      { st with
        ff_q_nets := addOnce st.ff_q_nets (String.mk (qc :: qrest)),
        d_nets := addOnce st.d_nets (String.mk (dc :: drest)),
        G := (st.G.addNode (String.mk (qc :: qrest))).addNode
          (String.mk (dc :: drest)) } := by
    unfold lineStep
    rw [if_neg (by rw [hnotA]; simp)]
    rw [if_neg (by rintro ⟨_, h2⟩; rw [hnotE] at h2; exact absurd h2 (by simp))]
    rw [if_pos hseq]
    rw [hm]
    dsimp only
    rw [htq, hfs, List.foldl_cons, List.foldl_nil]
    dsimp only
    rw [htd]
    rw [if_neg (fun hcontr =>
      List.cons_ne_nil dc drest (congrArg String.data hcontr))]
  refine ⟨?_, ?_, ?_, ?_⟩
  · rw [hstep]
    exact mem_addOnce st.ff_q_nets (String.mk (qc :: qrest))
  · rw [hstep]
    exact mem_addOnce st.d_nets (String.mk (dc :: drest))
  · rw [hstep]
    dsimp only
    rw [addNode_edges, addNode_edges]
  · intro st2 line2 hA hP
    unfold lineStep
    rw [if_pos hA]
    rw [if_pos (Or.inl hP)]

/-- Claim C7 counterexample: the line `endq <= d;` is a non-blocking
assignment (the procedural-assignment pattern matches it with target
endq and right-hand side d), and it stands inside a clocked always
block; yet the parser treats it as the end of the block, because the
stripped line starts with `end`, so the Q-net and D-net sets stay
empty. -/
theorem clocked_line_end_prefix_dropped :
    matchProcAssign ("endq <= d;".toList) =
      some ("endq".toList, true, "d".toList) ∧
    (lineStep PState.init ("always @(posedge clk) begin".toList)).in_seq
      = true ∧
    parse_verilog_to_dag
      ["always @(posedge clk) begin".toList, "endq <= d;".toList,
        "end".toList] = (⟨[], []⟩, [], []) := by
  refine ⟨by decide, by decide, by decide⟩

/-- Witness for C7: the amended theorem applied to the line ` q <= d;`
in a state inside a clocked block. -/
theorem clocked_block_q_d_nets_witness :
    (∀ c ∈ [' '], isWs c = true) ∧ isPlainIdent ['q'] = true ∧
    isPlainIdent ['d'] = true ∧
    (⟨⟨[], []⟩, [], [], true, false, 0⟩ : PState).in_seq = true ∧
    startsWithL (trimWs (nbaLine [' '] ['q'] ['d']))
      ['a', 'l', 'w', 'a', 'y', 's'] = false ∧
    startsWithL (trimWs (nbaLine [' '] ['q'] ['d'])) ['e', 'n', 'd'] = false ∧
    (String.mk ['q'] ∈
      (lineStep ⟨⟨[], []⟩, [], [], true, false, 0⟩
        (nbaLine [' '] ['q'] ['d'])).ff_q_nets ∧
    String.mk ['d'] ∈
      (lineStep ⟨⟨[], []⟩, [], [], true, false, 0⟩
        (nbaLine [' '] ['q'] ['d'])).d_nets ∧
    (lineStep ⟨⟨[], []⟩, [], [], true, false, 0⟩
      (nbaLine [' '] ['q'] ['d'])).G.edges =
      (⟨⟨[], []⟩, [], [], true, false, 0⟩ : PState).G.edges ∧
    ∀ (st2 : PState) (line2 : List Char),
      startsWithL (trimWs line2) ['a', 'l', 'w', 'a', 'y', 's'] = true →
      containsL (trimWs line2) ['p', 'o', 's', 'e', 'd', 'g', 'e'] = true →
      (lineStep st2 line2).in_seq = true) :=
  ⟨by decide, by decide, by decide, rfl, by decide, by decide,
   clocked_block_q_d_nets ⟨⟨[], []⟩, [], [], true, false, 0⟩ [' '] ['q'] ['d']
     (by decide) (by decide) (by decide) rfl (by decide) (by decide)⟩

/-!
Theorems settling the claims.
-/

/-- Claim C4: compute_slacks returns node_slack[n] = RT[n] - AT[n] for
every node and edge_slack[(u,v)] = RT[v] - AT[u] - d for every edge,
exactly; WNS is the minimum of the finite node slacks (+inf when there
is none: below every finite slack, itself a slack value when one is
finite) and TNS is the sum of the strictly negative finite node slacks,
infinite slacks excluded from both aggregates. -/
theorem compute_slacks_correct (G : DiGraph) (AT RT : List (String × ERat))
    (hnd : (G.edges.map DiGraph.pairOf).Nodup) :
    (∀ n a r, n ∈ G.nodes → getV AT n = some a → getV RT n = some r →
      getV (compute_slacks G AT RT).1 n = some (ERat.sub r a)) ∧
    (∀ e a r, e ∈ G.edges → getV AT e.1 = some a → getV RT e.2.1 = some r →
      getV (compute_slacks G AT RT).2.1 (e.1, e.2.1)
        = some (ERat.sub (ERat.sub r a) (ERat.fin e.2.2))) ∧
    (∀ s : ℚ, ERat.fin s ∈ (compute_slacks G AT RT).1.map Prod.snd →
      ERat.le (compute_slacks G AT RT).2.2.1 (ERat.fin s) = true) ∧
    ((∃ s : ℚ, ERat.fin s ∈ (compute_slacks G AT RT).1.map Prod.snd) →
      (compute_slacks G AT RT).2.2.1 ∈ (compute_slacks G AT RT).1.map Prod.snd) ∧
    ((∀ s : ℚ, ERat.fin s ∉ (compute_slacks G AT RT).1.map Prod.snd) →
      (compute_slacks G AT RT).2.2.1 = ERat.pinf) ∧
    ((compute_slacks G AT RT).2.2.2
      = ((((compute_slacks G AT RT).1.map Prod.snd).filterMap ERat.toQ).filter
          (fun s => s < 0)).sum) := by
  have h1 : (compute_slacks G AT RT).1 = G.nodes.map (fun n =>
      (n, ERat.sub ((getV RT n).getD ERat.pinf) ((getV AT n).getD ERat.ninf))) := rfl
  have h2 : (compute_slacks G AT RT).2.1 = G.edges.map (fun e =>
      (DiGraph.pairOf e,
       ERat.sub (ERat.sub ((getV RT e.2.1).getD ERat.pinf)
         ((getV AT e.1).getD ERat.ninf)) (ERat.fin e.2.2))) := rfl
  have h3 : (compute_slacks G AT RT).2.2.1 =
      match (compute_slacks G AT RT).1.filterMap (fun p => ERat.toQ p.2) with
      | [] => ERat.pinf
      | x :: xs => ERat.fin (xs.foldl min x) := rfl
  have h4 : (compute_slacks G AT RT).2.2.2 =
      (((compute_slacks G AT RT).1.filterMap (fun p => ERat.toQ p.2)).filter
        (fun s => s < 0)).sum := rfl
  have hmem : ∀ s : ℚ, ERat.fin s ∈ (compute_slacks G AT RT).1.map Prod.snd ↔
      s ∈ (compute_slacks G AT RT).1.filterMap (fun p => ERat.toQ p.2) := by
    intro s
    constructor
    · intro hs
      obtain ⟨p, hp, hps⟩ := List.mem_map.mp hs
      exact List.mem_filterMap.mpr ⟨p, hp, by rw [hps]; rfl⟩
    · intro hs
      obtain ⟨p, hp, hps⟩ := List.mem_filterMap.mp hs
      refine List.mem_map.mpr ⟨p, hp, ?_⟩
      cases hp2 : p.2 with
      | fin q =>
        rw [hp2] at hps
        simp only [ERat.toQ, Option.some.injEq] at hps
        rw [hps]
      | ninf => rw [hp2] at hps; cases hps
      | pinf => rw [hp2] at hps; cases hps
  refine ⟨?_, ?_, ?_, ?_, ?_, ?_⟩
  · intro n a r hn ha hr
    rw [h1, getV_map_self _ hn, ha, hr]
    rfl
  · intro e a r he ha hr
    rw [h2]
    show getV _ (DiGraph.pairOf e) = _
    rw [getV_keyed_nodup DiGraph.pairOf _ he hnd, ha, hr]
    rfl
  · intro s hs
    have hsf := (hmem s).mp hs
    rw [h3]
    rcases hF : (compute_slacks G AT RT).1.filterMap (fun p => ERat.toQ p.2) with
      _ | ⟨x, xs⟩
    · rw [hF] at hsf
      cases hsf
    · rw [hF] at hsf
      rw [hF]
      show ERat.le (ERat.fin (xs.foldl min x)) (ERat.fin s) = true
      simp only [ERat.le, decide_eq_true_eq]
      exact foldl_min_le xs x s hsf
  · rintro ⟨s, hs⟩
    have hsf := (hmem s).mp hs
    rw [h3]
    rcases hF : (compute_slacks G AT RT).1.filterMap (fun p => ERat.toQ p.2) with
      _ | ⟨x, xs⟩
    · rw [hF] at hsf
      cases hsf
    · rw [hF]
      show ERat.fin (xs.foldl min x) ∈ _
      refine (hmem _).mpr ?_
      rw [hF]
      exact foldl_min_mem xs x
  · intro hall
    rw [h3]
    rcases hF : (compute_slacks G AT RT).1.filterMap (fun p => ERat.toQ p.2) with
      _ | ⟨x, xs⟩
    · rw [hF]
    · exfalso
      refine hall x ((hmem x).mpr ?_)
      rw [hF]
      exact List.mem_cons_self _ _
  · rw [h4, List.filterMap_map]
    rfl

/-- Arrival map used to instantiate the slack-computation theorem. -/
def slackAT : List (String × ERat) := [("a", ERat.fin 1), ("b", ERat.ninf)]

/-- Required map used to instantiate the slack-computation theorem. -/
def slackRT : List (String × ERat) := [("a", ERat.pinf), ("b", ERat.fin 2)]

/-- Witness for compute_slacks_correct at a concrete graph and maps. -/
theorem compute_slacks_correct_witness :
    (slackWG.edges.map DiGraph.pairOf).Nodup ∧
    ((∀ n a r, n ∈ slackWG.nodes → getV slackAT n = some a → getV slackRT n = some r →
      getV (compute_slacks slackWG slackAT slackRT).1 n = some (ERat.sub r a)) ∧
    (∀ e a r, e ∈ slackWG.edges → getV slackAT e.1 = some a →
      getV slackRT e.2.1 = some r →
      getV (compute_slacks slackWG slackAT slackRT).2.1 (e.1, e.2.1)
        = some (ERat.sub (ERat.sub r a) (ERat.fin e.2.2))) ∧
    (∀ s : ℚ, ERat.fin s ∈ (compute_slacks slackWG slackAT slackRT).1.map Prod.snd →
      ERat.le (compute_slacks slackWG slackAT slackRT).2.2.1 (ERat.fin s) = true) ∧
    ((∃ s : ℚ, ERat.fin s ∈ (compute_slacks slackWG slackAT slackRT).1.map Prod.snd) →
      (compute_slacks slackWG slackAT slackRT).2.2.1
        ∈ (compute_slacks slackWG slackAT slackRT).1.map Prod.snd) ∧
    ((∀ s : ℚ, ERat.fin s ∉ (compute_slacks slackWG slackAT slackRT).1.map Prod.snd) →
      (compute_slacks slackWG slackAT slackRT).2.2.1 = ERat.pinf) ∧
    ((compute_slacks slackWG slackAT slackRT).2.2.2
      = ((((compute_slacks slackWG slackAT slackRT).1.map Prod.snd).filterMap
          ERat.toQ).filter (fun s => s < 0)).sum)) :=
  ⟨by decide, compute_slacks_correct slackWG slackAT slackRT (by decide)⟩

/-- Claim C10: override entries for unknown nets are silently ignored:
inserting an entry with a non-node key anywhere in startpoint_overrides
leaves the AT and backpred result of forward_arrival_times unchanged;
likewise backward_required_times ignores non-node endpoint_overrides
keys and non-node endpoint seeds; and the returned AT and RT maps are
keyed by exactly the node list of the graph, never by the unknown
key. -/
theorem unknown_overrides_ignored (G : DiGraph)
    (topo startpoints endpoints es1 es2 : List String)
    (clock_to_q Tclk setup eps : ℚ)
    (ov1 ov2 eov1 eov2 : List (String × ℚ)) (k : String) (v w : ℚ)
    (hk : k ∉ G.nodes) :
    forward_arrival_times G topo startpoints clock_to_q (ov1 ++ (k, v) :: ov2) eps
      = forward_arrival_times G topo startpoints clock_to_q (ov1 ++ ov2) eps ∧
    backward_required_times G topo endpoints Tclk setup (eov1 ++ (k, w) :: eov2)
      = backward_required_times G topo endpoints Tclk setup (eov1 ++ eov2) ∧
    backward_required_times G topo (es1 ++ k :: es2) Tclk setup (eov1 ++ eov2)
      = backward_required_times G topo (es1 ++ es2) Tclk setup (eov1 ++ eov2) ∧
    keysOf (forward_arrival_times G topo startpoints clock_to_q
      (ov1 ++ (k, v) :: ov2) eps).1 = G.nodes ∧
    keysOf (backward_required_times G topo endpoints Tclk setup
      (eov1 ++ (k, w) :: eov2)) = G.nodes := by
  refine ⟨forward_skip_unknown_override G topo startpoints clock_to_q eps
      ov1 ov2 k v hk,
    backward_skip_unknown_override G topo endpoints Tclk setup eov1 eov2 k w hk,
    backward_skip_unknown_endpoint G topo es1 es2 Tclk setup (eov1 ++ eov2) k hk,
    ?_, ?_⟩
  · have hkeys0 : keysOf (G.nodes.map (fun n => (n, ERat.ninf))) = G.nodes :=
      keysOf_map_mk _ _
    have hkeysAT1 : keysOf (startpoints.foldl
        (fun m s => if (getV m s).isSome then setV m s (ERat.fin clock_to_q) else m)
        (G.nodes.map (fun n => (n, ERat.ninf)))) = G.nodes := by
      have h := keysOf_seed_fold (fun s : String => s)
        (fun _ : String => ERat.fin clock_to_q) startpoints
        (G.nodes.map (fun n => (n, ERat.ninf)))
      rw [hkeys0] at h
      exact h
    have hkeysAT2 : keysOf ((ov1 ++ (k, v) :: ov2).foldl
        (fun m p => if (getV m p.1).isSome then setV m p.1 (ERat.fin p.2) else m)
        (startpoints.foldl
          (fun m s => if (getV m s).isSome then setV m s (ERat.fin clock_to_q) else m)
          (G.nodes.map (fun n => (n, ERat.ninf))))) = G.nodes := by
      have h := keysOf_seed_fold Prod.fst (fun p : String × ℚ => ERat.fin p.2)
        (ov1 ++ (k, v) :: ov2)
        (startpoints.foldl
          (fun m s => if (getV m s).isSome then setV m s (ERat.fin clock_to_q) else m)
          (G.nodes.map (fun n => (n, ERat.ninf))))
      rw [hkeysAT1] at h
      exact h
    exact foldl_preserves (fun st : FState => keysOf st.1 = G.nodes)
      (fwdNodeStep G eps)
      (fun st u hst => (keysOf_fwdNodeStep G eps st u).1.trans hst)
      topo _ hkeysAT2
  · have hkeys0 : keysOf (G.nodes.map (fun n => (n, ERat.pinf))) = G.nodes :=
      keysOf_map_mk _ _
    have hkeysRT1 : keysOf (endpoints.foldl
        (fun m e => if (getV m e).isSome then setV m e (ERat.fin (Tclk - setup)) else m)
        (G.nodes.map (fun n => (n, ERat.pinf)))) = G.nodes := by
      have h := keysOf_seed_fold (fun s : String => s)
        (fun _ : String => ERat.fin (Tclk - setup)) endpoints
        (G.nodes.map (fun n => (n, ERat.pinf)))
      rw [hkeys0] at h
      exact h
    have h := keysOf_seed_fold Prod.fst (fun p : String × ℚ => ERat.fin p.2)
      (eov1 ++ (k, w) :: eov2)
      (endpoints.foldl
        (fun m e => if (getV m e).isSome then setV m e (ERat.fin (Tclk - setup)) else m)
        (G.nodes.map (fun n => (n, ERat.pinf))))
    rw [hkeysRT1] at h
    exact h

/-- Witness for unknown_overrides_ignored with the unknown key zz on the
two-node graph. -/
theorem unknown_overrides_ignored_witness :
    "zz" ∉ slackWG.nodes ∧
    (forward_arrival_times slackWG ["a", "b"] ["a"] 0 ([("a", 3)] ++ ("zz", 5) :: []) 0
      = forward_arrival_times slackWG ["a", "b"] ["a"] 0 ([("a", 3)] ++ []) 0 ∧
    backward_required_times slackWG ["a", "b"] ["b"] 2 0 ([] ++ ("zz", 6) :: [("b", 4)])
      = backward_required_times slackWG ["a", "b"] ["b"] 2 0 ([] ++ [("b", 4)]) ∧
    backward_required_times slackWG ["a", "b"] (["b"] ++ "zz" :: []) 2 0 ([] ++ [("b", 4)])
      = backward_required_times slackWG ["a", "b"] (["b"] ++ []) 2 0 ([] ++ [("b", 4)]) ∧
    keysOf (forward_arrival_times slackWG ["a", "b"] ["a"] 0
      ([("a", 3)] ++ ("zz", 5) :: []) 0).1 = slackWG.nodes ∧
    keysOf (backward_required_times slackWG ["a", "b"] ["b"] 2 0
      ([] ++ ("zz", 6) :: [("b", 4)])) = slackWG.nodes) :=
  ⟨by decide,
   unknown_overrides_ignored slackWG ["a", "b"] ["a"] ["b"] ["b"] [] 0 2 0 0
     [("a", 3)] [] [] [("b", 4)] "zz" 5 6 (by decide)⟩

/-- The findKLoop state invariant: the caller graph component is never
written, and the working copy only ever keeps its node list and loses
edges. -/
theorem findKLoop_preserves_orig (startpoints endpoints : List String)
    (Tclk setup clock_to_q : ℚ)
    (spo epo : List (String × ℚ)) (eps : ℚ) :
    ∀ (k : Nat) (st : KState) (acc : List PathInfo)
      (out : List PathInfo × KState),
      findKLoop startpoints endpoints Tclk setup clock_to_q spo epo eps
        k st acc = Except.ok out →
      out.2.orig = st.orig ∧ out.2.work.nodes = st.work.nodes ∧
      (∀ e ∈ out.2.work.edges, e ∈ st.work.edges) := by
  intro k
  induction k with
  | zero =>
    intro st acc out h
    simp only [findKLoop, Except.ok.injEq] at h
    rw [← h]
    exact ⟨rfl, rfl, fun e he => he⟩
  | succ n ih =>
    intro st acc out h
    simp only [findKLoop] at h
    split at h
    · cases h
    · simp only [Except.ok.injEq] at h
      rw [← h]
      exact ⟨rfl, rfl, fun e he => he⟩
    · rename_i p heq
      have hrm := foldl_preserves
        (fun g : DiGraph => g.nodes = st.work.nodes ∧ ∀ e ∈ g.edges, e ∈ st.work.edges)
        (fun g uv => if g.hasEdge uv.1 uv.2 then g.removeEdge uv.1 uv.2 else g)
        (by
          intro g uv hg
          dsimp only
          split
          · refine ⟨hg.1, ?_⟩
            intro e he
            exact hg.2 e (List.mem_filter.mp he).1
          · exact hg)
        p.edges st.work ⟨rfl, fun e he => he⟩
      have := ih _ _ _ h
      exact ⟨this.1, this.2.1.trans hrm.1, fun e he => hrm.2 e (this.2.2 e he)⟩

/-- Claim C6: find_k_critical_paths never mutates the input DAG: in the
instrumented run the caller graph component of the state is returned
exactly as passed (same node list, same edge list with the same
delays), every edge removal applying only to the working copy, whose
node list stays that of the input and whose edges remain a subset of
the input edges; the public result is the path list of that run. -/
theorem find_k_input_never_mutated (G : DiGraph)
    (startpoints endpoints : List String) (Tclk setup clock_to_q : ℚ)
    (spo epo : List (String × ℚ)) (eps : ℚ) (k : Nat)
    (out : List PathInfo × KState)
    (h : findKLoop startpoints endpoints Tclk setup clock_to_q spo epo eps
      k ⟨G, G.copy⟩ [] = Except.ok out) :
    out.2.orig = G ∧
    out.2.work.nodes = G.nodes ∧
    (∀ e ∈ out.2.work.edges, e ∈ G.edges) ∧
    find_k_critical_paths G startpoints endpoints Tclk setup clock_to_q
      spo epo eps k = Except.ok out.1 := by
  have hinv := findKLoop_preserves_orig startpoints endpoints Tclk setup
    clock_to_q spo epo eps k ⟨G, G.copy⟩ [] out h
  refine ⟨hinv.1, hinv.2.1, hinv.2.2, ?_⟩
  unfold find_k_critical_paths
  rw [h]
  rfl

/-- Witness for find_k_input_never_mutated on the two-node graph with an
empty endpoint collection (the first extraction yields no path). -/
theorem find_k_input_never_mutated_witness :
    (findKLoop ["a"] [] 2 0 0 [] [] 0 1
        (⟨slackWG, slackWG.copy⟩ : KState) []
      = Except.ok ([], (⟨slackWG, slackWG.copy⟩ : KState))) ∧
    ((([], (⟨slackWG, slackWG.copy⟩ : KState)) :
        List PathInfo × KState).2.orig = slackWG ∧
     (([], (⟨slackWG, slackWG.copy⟩ : KState)) :
        List PathInfo × KState).2.work.nodes = slackWG.nodes ∧
     (∀ e ∈ (([], (⟨slackWG, slackWG.copy⟩ : KState)) :
        List PathInfo × KState).2.work.edges, e ∈ slackWG.edges) ∧
     find_k_critical_paths slackWG ["a"] [] 2 0 0 [] [] 0 1
       = Except.ok (([], (⟨slackWG, slackWG.copy⟩ : KState)) :
          List PathInfo × KState).1) :=
  ⟨rfl, find_k_input_never_mutated slackWG ["a"] [] 2 0 0 [] [] 0 1
    ([], ⟨slackWG, slackWG.copy⟩) rfl⟩

/-- Claim C5: the paths returned by find_k_critical_paths are pairwise
edge-disjoint: no directed edge occurs in the edge lists of two distinct
emitted paths, because every edge of an emitted path is an edge of the
working copy, those edges are removed from the working copy before the
next extraction, and the analysis is re-run on the pruned copy. -/
theorem find_k_paths_edge_disjoint (G : DiGraph)
    (startpoints endpoints : List String) (Tclk setup clock_to_q : ℚ)
    (spo epo : List (String × ℚ)) (eps : ℚ) (k : Nat)
    (paths : List PathInfo)
    (h : find_k_critical_paths G startpoints endpoints Tclk setup clock_to_q
      spo epo eps k = Except.ok paths) :
    paths.Pairwise (fun p q => ∀ e ∈ p.edges, e ∉ q.edges) := by
  unfold find_k_critical_paths at h
  cases hloop : findKLoop startpoints endpoints Tclk setup clock_to_q spo epo eps
      k ⟨G, G.copy⟩ [] with
  | error e => rw [hloop] at h; cases h
  | ok out =>
    rw [hloop] at h
    simp only [Except.map, Except.ok.injEq] at h
    rw [← h]
    exact findKLoop_disjoint startpoints endpoints Tclk setup clock_to_q spo epo
      eps k ⟨G, G.copy⟩ [] out hloop
      (fun p hp => absurd hp (List.not_mem_nil p))
      List.Pairwise.nil

/-- Witness for find_k_paths_edge_disjoint on the two-node graph with
k = 2 (the second extraction finds no path). -/
theorem find_k_paths_edge_disjoint_witness :
    (find_k_critical_paths slackWG ["a"] ["b"] 2 0 0 [] [] 0 2
      = Except.ok [⟨["a", "b"], [("a", "b")], 1/2, ERat.fin (3/2), ERat.fin 0⟩]) ∧
    ([(⟨["a", "b"], [("a", "b")], 1/2, ERat.fin (3/2), ERat.fin 0⟩ : PathInfo)].Pairwise
      (fun p q => ∀ e ∈ p.edges, e ∉ q.edges)) :=
  ⟨rfl,
   find_k_paths_edge_disjoint slackWG ["a"] ["b"] 2 0 0 [] [] 0 2
     [⟨["a", "b"], [("a", "b")], 1/2, ERat.fin (3/2), ERat.fin 0⟩] rfl⟩

/-- Claim C3: after forward_arrival_times runs on a DAG in topological
order (every edge goes strictly forward in the order, which holds no
duplicates) with tolerance eps at least 0, every recorded
back-predecessor is a witness of the arrival time: for every node v and
every u in backpred[v], there is a graph edge (u, v) with delay d such
that the absolute difference between AT[u] + d and AT[v] is at most eps
(a strict winner replaces the list, a tie within eps appends). -/
theorem backpred_entries_are_witnesses (G : DiGraph) (topo sps : List String)
    (c2q : ℚ) (ov : List (String × ℚ)) (eps : ℚ)
    (heps : 0 ≤ eps) (htopo : topo.Nodup)
    (horder : ∀ e ∈ G.edges, beforeIn topo e.1 e.2.1) :
    ∀ v bl u, getV (forward_arrival_times G topo sps c2q ov eps).2 v = some bl →
      u ∈ bl →
      ∃ d au av, (u, v, d) ∈ G.edges ∧
        getV (forward_arrival_times G topo sps c2q ov eps).1 u = some au ∧
        getV (forward_arrival_times G topo sps c2q ov eps).1 v = some av ∧
        ERat.le (ERat.abs (ERat.sub (ERat.add au (ERat.fin d)) av)) (ERat.fin eps)
          = true := by
  intro v bl u hg hu
  have hkeys0 : keysOf (G.nodes.map (fun n => (n, ERat.ninf))) = G.nodes :=
    keysOf_map_mk _ _
  have hkeysAT1 : keysOf (sps.foldl
      (fun m s => if (getV m s).isSome then setV m s (ERat.fin c2q) else m)
      (G.nodes.map (fun n => (n, ERat.ninf)))) = G.nodes := by
    have h := keysOf_seed_fold (fun s : String => s)
      (fun _ : String => ERat.fin c2q) sps
      (G.nodes.map (fun n => (n, ERat.ninf)))
    rw [hkeys0] at h
    exact h
  have hkeysAT2 : keysOf (ov.foldl
      (fun m p => if (getV m p.1).isSome then setV m p.1 (ERat.fin p.2) else m)
      (sps.foldl
        (fun m s => if (getV m s).isSome then setV m s (ERat.fin c2q) else m)
        (G.nodes.map (fun n => (n, ERat.ninf))))) = G.nodes := by
    have h := keysOf_seed_fold Prod.fst (fun p : String × ℚ => ERat.fin p.2) ov
      (sps.foldl
        (fun m s => if (getV m s).isSome then setV m s (ERat.fin c2q) else m)
        (G.nodes.map (fun n => (n, ERat.ninf))))
    rw [hkeysAT1] at h
    exact h
  have hfinal := fwd_sweep_inv G eps heps topo htopo horder topo [] rfl
    (ov.foldl
      (fun m p => if (getV m p.1).isSome then setV m p.1 (ERat.fin p.2) else m)
      (sps.foldl
        (fun m s => if (getV m s).isSome then setV m s (ERat.fin c2q) else m)
        (G.nodes.map (fun n => (n, ERat.ninf)))),
     G.nodes.map (fun n => (n, ([] : List String))))
    (by
      dsimp only
      rw [hkeysAT2, keysOf_map_mk])
    (by
      intro v2 bl2 u2 hg2 hu2
      dsimp only at hg2
      have hb := getV_map_mk_eq (fun _ => ([] : List String)) G.nodes v2 bl2 hg2
      rw [hb] at hu2
      cases hu2)
  obtain ⟨d, au, av, hd, _, hau, hav, hle⟩ := hfinal v bl u hg hu
  exact ⟨d, au, av, hd, hau, hav, hle⟩

/-- Witness for backpred_entries_are_witnesses on the two-node graph. -/
theorem backpred_entries_are_witnesses_witness :
    ((0 : ℚ) ≤ 0 ∧ (["a", "b"] : List String).Nodup ∧
      (∀ e ∈ slackWG.edges, beforeIn ["a", "b"] e.1 e.2.1)) ∧
    (∀ v bl u, getV (forward_arrival_times slackWG ["a", "b"] ["a"] 0 [] 0).2 v
        = some bl → u ∈ bl →
      ∃ d au av, (u, v, d) ∈ slackWG.edges ∧
        getV (forward_arrival_times slackWG ["a", "b"] ["a"] 0 [] 0).1 u = some au ∧
        getV (forward_arrival_times slackWG ["a", "b"] ["a"] 0 [] 0).1 v = some av ∧
        ERat.le (ERat.abs (ERat.sub (ERat.add au (ERat.fin d)) av)) (ERat.fin 0)
          = true) :=
  ⟨⟨by decide, by decide, by decide⟩,
   backpred_entries_are_witnesses slackWG ["a", "b"] ["a"] 0 [] 0
     (by decide) (by decide) (by decide)⟩

/-- Claim C1: the spec requires backward_required_times to run the full
reverse sweep (RT[u] = min over out-edges of RT[v] - d), as its own
docstring states; the code has the sweep commented out and returns only
the seeded values.  On the graph a -> b (delay 1) with endpoint b,
Tclk = 10, setup = 0, the code leaves RT[a] = +inf where the documented
sweep yields RT[a] = 9.  This evaluates both at that failing input. -/
theorem backward_sweep_commented_out :
    backward_required_times bwdBugGraph ["a", "b"] ["b"] 10 0 []
      = [("a", ERat.pinf), ("b", ERat.fin 10)] ∧
    backward_required_times_spec bwdBugGraph ["a", "b"] ["b"] 10 0 []
      = [("a", ERat.fin 9), ("b", ERat.fin 10)] := by
  constructor <;> decide

/-- Claim C8: the line `assign y = ~a & ~b;` is classified NOR (positive
ampersand count, zero pipe and caret counts, at least two tildes, and
negated-signal matches equal to signal matches), and parsing it adds
exactly the edges a -> y and b -> y, each with delay 0.045. -/
theorem nor_line_classified_and_edges :
    detect_gate_type norExpr = "NOR" ∧
    norExpr.count '&' > 0 ∧
    norExpr.count '|' = 0 ∧
    norExpr.count '^' = 0 ∧
    norExpr.count '~' ≥ 2 ∧
    countNegMatches norExpr = countAllMatches norExpr ∧
    (parse_verilog_to_dag [norLine]).1.edges
      = [("a", "y", 45/1000), ("b", "y", 45/1000)] := by
  refine ⟨by decide, by decide, by decide, by decide, by decide, by decide, by decide⟩

/-- Claim C9, counterexample: the claim names the fresh internal nets of
the MUX2 expansion nS_1, t0_1, t1_1, but the parser generates
mux2_nS_1, mux2_t0_1, mux2_t1_1: the graph has 7 nodes, yet none of
them is nS_1. -/
theorem mux2_internal_net_names_differ :
    (parse_verilog_to_dag [muxLine]).1.nodes.length = 7 ∧
    "nS_1" ∉ (parse_verilog_to_dag [muxLine]).1.nodes := by
  constructor
  · decide
  · decide

/-- Claim C9 as amended: parsing `MUX2 u ( .A(a), .B(b), .S(s), .Y(y) );`
on an empty graph yields exactly the 7 nodes a, b, s, mux2_nS_1,
mux2_t0_1, mux2_t1_1, y and exactly the 6 edges S -> nS at 0.05 (MUX2
NOT), A -> t0 and nS -> t0 at 0.07 (MUX2 AND), B -> t1 and S -> t1 at
0.07 (MUX2 AND), t0 -> Y and t1 -> Y at 0.08 (MUX2 OR). -/
theorem mux2_expansion_nodes_edges :
    (parse_verilog_to_dag [muxLine]).1.nodes
      = ["a", "b", "s", "mux2_nS_1", "mux2_t0_1", "mux2_t1_1", "y"] ∧
    (parse_verilog_to_dag [muxLine]).1.edges
      = [("s", "mux2_nS_1", 5/100),
         ("a", "mux2_t0_1", 7/100),
         ("mux2_nS_1", "mux2_t0_1", 7/100),
         ("b", "mux2_t1_1", 7/100),
         ("s", "mux2_t1_1", 7/100),
         ("mux2_t0_1", "y", 8/100),
         ("mux2_t1_1", "y", 8/100)] := by
  constructor
  · decide
  · decide

end STA
